import Mathlib

/-!
Verification development for the StochasticSchool FCIQMC teaching code.

The Python sources embedded here are
`Day3_FCIQMC/exercises/det_ops.py` (determinant algebra, Slater-Condon
rules, random excitation generation) and
`Day3_FCIQMC/exercises/fciqmc_partI.py` (the walker-population evolution
loop).  Real weights and integrals are modelled by `ℚ`; Python lists of
occupied spin-orbital indices by `List Nat`; the walker dictionary by an
association list `List (Nat × ℚ)` in insertion order, mirroring CPython
dictionary semantics.  Random draws (`np.random.random`,
`np.random.randint`) are passed in explicitly; a rejection loop
(redraw-until-valid) is modelled by its accepted draw, constrained by the
loop's exit condition, and its output distribution by the uniform
distribution on the acceptance set.
-/

set_option maxHeartbeats 1000000

/-- Python's `sorted` on a list of naturals (comparison sort; on `Nat`
any correct sort computes the same function). -/
def pySorted (l : List Nat) : List Nat :=
  l.insertionSort (· ≤ ·)

/-- Python indexing: a negative index wraps by the length
(`l[i]` is `l[i + len(l)]` for `i < 0`).  Out-of-range access raises in
Python; here it returns the default `0` and is unreachable under the
documented preconditions. -/
def pyIdx (n : Nat) (i : Int) : Nat :=
  (if i < 0 then i + n else i).toNat

/-- `l[i]` with Python index semantics (see `pyIdx`). -/
def pyGet (l : List Nat) (i : Int) : Nat :=
  l.getD (pyIdx l.length i) 0

/-- `l[i] = v` with Python index semantics (see `pyIdx`). -/
def pySet (l : List Nat) (i : Int) (v : Nat) : List Nat :=
  l.set (pyIdx l.length i) v

/-- The direction `step` chosen at the top of `elec_exchange_ops`:
`1` for `ind == 0`; `-1` for `ind == -1` or `ind == len(det)-1`;
otherwise `1` iff `det[ind] > det[ind+1]`. -/
def eeoStep (det : List Nat) (ind : Int) : Int :=
  if ind = 0 then 1
  else if ind = -1 ∨ ind = (det.length : Int) - 1 then -1
  else if pyGet det ind > pyGet det (ind + 1) then 1 else -1

/-- The `while det_copy != sorted(det_copy)` bubbling loop of
`elec_exchange_ops`: swap `det_copy[ind]` and `det_copy[ind+step]`,
advance `ind`, count a permutation.  The loop is given `fuel`
(`det.length` suffices under the function's precondition that the list
is ordered apart from the single entry `ind`); Python's loop has no
bound and diverges on inputs violating the precondition.
Returns the swap count together with the final list contents. -/
def eeoLoop : Nat → List Nat → Int → Int → Nat → Nat × List Nat
  | 0, det_copy, _, _, perm => (perm, det_copy)
  | fuel + 1, det_copy, ind, step, perm =>
    if det_copy = pySorted det_copy then (perm, det_copy)
    else
      let tmp := pyGet det_copy (ind + step)
      let d1 := pySet det_copy (ind + step) (pyGet det_copy ind)
      let d2 := pySet d1 ind tmp
      eeoLoop fuel d2 (ind + step) step (perm + 1)

/-- `elec_exchange_ops(det, ind)` from `det_ops.py`: the number of
nearest-neighbour exchanges needed to re-sort a list that is ordered
apart from the single position `ind`.  Only `det_copy = det.copy()` is
mutated; the argument list is read-only. -/
def elec_exchange_ops (det : List Nat) (ind : Int) : Nat :=
  (eeoLoop det.length det ind (eeoStep det ind) 0).1

/-- The Hamiltonian data held by the Python `HAM` class: one- and
two-electron integral tensors in the spin-orbital basis, the nuclear
repulsion scalar, the electron and spatial-orbital counts, and the
single-excitation generation probability. -/
structure HAM where
  nn : ℚ
  h1 : Nat → Nat → ℚ
  h2 : Nat → Nat → Nat → Nat → ℚ
  nelec : Nat
  nbasis : Nat
  p_single : ℚ

/-- The running diagonal sum of `HAM.slater_condon`'s `excit_mat is None`
branch: `for pos, p in enumerate(det): hel += h1[p,p];
for q in det[pos+1:]: hel += h2[p,p,q,q] - h2[p,q,q,p]`. -/
def diagTerms (H : HAM) : List Nat → ℚ
  | [] => 0
  | p :: rest =>
    H.h1 p p + (rest.map (fun q => H.h2 p p q q - H.h2 p q q p)).sum
      + diagTerms H rest

/-- The final `if parity is not None: hel *= parity` of
`HAM.slater_condon`. -/
def applyParity (parity : Option Int) (hel : ℚ) : ℚ :=
  match parity with
  | none => hel
  | some s => hel * (s : ℚ)

/-- `HAM.slater_condon(det, excited_det, excit_mat, parity)` from
`det_ops.py`.  The excitation matrix is the pair
(orbitals excited from, orbitals excited to); Python branches on
`len(excit_mat[0])` and reads only the leading entries of
`excit_mat[1]` (an excitation matrix whose second tuple is shorter than
its first would raise in Python; that case is mapped to the final
`hel = 0` branch here and is outside every claim). -/
def slater_condon (H : HAM) (det : List Nat)
    (excit_mat : Option (List Nat × List Nat)) (parity : Option Int) : ℚ :=
  applyParity parity <|
    match excit_mat with
    | none => H.nn + diagTerms H det
    | some em =>
      match em.1, em.2 with
      | [i], a :: _ =>
        H.h1 i a + (det.map (fun q => H.h2 i a q q - H.h2 i q q a)).sum
      | [i, j], a :: b :: _ => H.h2 i a j b - H.h2 i b j a
      | _, _ => 0

/-- `scipy.special.comb(n, 2)` on a Python integer argument: the number
of unordered pairs, `0` for `n < 2` (scipy returns `0.0` for a negative
population). -/
def comb2 (n : Int) : ℚ :=
  if n < 0 then 0 else (n : ℚ) * ((n : ℚ) - 1) / 2

/-- The random draws consumed by one call of `HAM.excit_gen`, after
rejection: `single` is the Bernoulli branch choice
(`np.random.random() < p_single`); `ind`/`orb_to` are the accepted
first-substitution draws (`orb_to` redrawn `while orb_to in det`);
`ind2`/`orb_to_2` are the accepted second-substitution draws for the
double branch (redrawn while
`orb_to_2 in excited_det or orb_to_2 == orb_from or orb_from_2 == orb_to`). -/
structure ExcitDraws where
  single : Bool
  ind : Nat
  orb_to : Nat
  ind2 : Nat
  orb_to_2 : Nat

/-- The return value of `HAM.excit_gen`: the excited determinant, the
excitation matrix, the parity `(-1)**perm`, and the normalized
generation probability. -/
structure ExcitResult where
  excited_det : List Nat
  excit_mat : List Nat × List Nat
  parity : Int
  prob : ℚ

/-- The probability reported by `HAM.excit_gen` for a single excitation:
`self.p_single/(self.nelec*(2*self.nbasis - self.nelec))`. -/
def reportedProbSingle (H : HAM) : ℚ :=
  H.p_single / ((H.nelec : ℚ) * (2 * (H.nbasis : ℚ) - (H.nelec : ℚ)))

/-- The probability reported by `HAM.excit_gen` for a double excitation:
`(1 - self.p_single) / (comb(2*self.nbasis - self.nelec, 2)*comb(self.nelec, 2))`. -/
def reportedProbDouble (H : HAM) : ℚ :=
  (1 - H.p_single) /
    (comb2 (2 * (H.nbasis : Int) - (H.nelec : Int)) * comb2 (H.nelec : Int))

/-- `HAM.excit_gen(det)` from `det_ops.py`, with the accepted random
draws passed in through `d`.  The first substitution overwrites position
`ind` of the copy with `orb_to`, records the local exchange count, and
re-sorts; the double branch repeats this once more on the sorted list
and composes the exchange counts. -/
def excit_gen (H : HAM) (det : List Nat) (d : ExcitDraws) : ExcitResult :=
  let excited₀ := det
  let orb_from := excited₀.getD d.ind 0
  let excited₁ := excited₀.set d.ind d.orb_to
  let perm := elec_exchange_ops excited₁ (d.ind : Int)
  let excitedS := pySorted excited₁
  if d.single then
    { excited_det := excitedS
      excit_mat := ([orb_from], [d.orb_to])
      parity := (-1 : Int) ^ perm
      prob := reportedProbSingle H }
  else
    let orb_from_2 := excitedS.getD d.ind2 0
    let excited₂ := excitedS.set d.ind2 d.orb_to_2
    let perm₂ := perm + elec_exchange_ops excited₂ (d.ind2 : Int)
    { excited_det := pySorted excited₂
      excit_mat := ([orb_from, orb_from_2], [d.orb_to, d.orb_to_2])
      parity := (-1 : Int) ^ perm₂
      prob := reportedProbDouble H }

/-- The `for from_orb, to_orb in zip(from_orbs, to_orbs)` relabelling
loop of `calc_excit_mat_parity`: locate the vacated orbital in the
working copy, overwrite it with the newly occupied orbital, add the
local exchange count, re-sort, and continue. -/
def cempLoop : List Nat → List (Nat × Nat) → Nat
  | _, [] => 0
  | det_copy, (from_orb, to_orb) :: rest =>
    let ind := det_copy.indexOf from_orb
    let det_copy' := det_copy.set ind to_orb
    elec_exchange_ops det_copy' (ind : Int) + cempLoop (pySorted det_copy') rest

/-- `calc_excit_mat_parity(det, excited_det)` from `det_ops.py`.
`from_orbs` collects the entries of `det` absent from `excited_det`,
`to_orbs` the entries of `excited_det` absent from `det`; the parity is
`(-1)**perm` from the sequential relabelling loop.  The final guard is a
faithful translation of `if not list(excit_mat)`: `excit_mat` is the
two-element Python list `[tuple(from_orbs), tuple(to_orbs)]`, so the
test asks whether that two-element list is empty. -/
def calc_excit_mat_parity (det excited_det : List Nat) :
    Option (List Nat × List Nat) × Option Int :=
  let from_orbs := det.filter (fun x => decide (x ∉ excited_det))
  let to_orbs := excited_det.filter (fun x => decide (x ∉ det))
  let excit_mat : List Nat × List Nat := (from_orbs, to_orbs)
  let perm := cempLoop det (from_orbs.zip to_orbs)
  let parity : Int := (-1 : Int) ^ perm
  if ([excit_mat.1, excit_mat.2] : List (List Nat)) = [] then (none, none)
  else (some excit_mat, some parity)

/-! ## The walker-population evolution loop of `fciqmc_partI.py`

The walker dictionary is an association list in insertion order
(CPython dictionaries preserve insertion order; updating a value keeps
its position, `del` removes the entry, assigning a fresh key appends).
-/

/-- `k in d` / `d[k]` on the walker dictionary: the value at the first
(under the no-duplicate-keys invariant, only) occurrence of key `k`. -/
def alookup : List (Nat × ℚ) → Nat → Option ℚ
  | [], _ => none
  | e :: rest, k => if e.1 = k then some e.2 else alookup rest k

/-- `del d[k]` on the walker dictionary. -/
def adel : List (Nat × ℚ) → Nat → List (Nat × ℚ)
  | [], _ => []
  | e :: rest, k => if e.1 = k then rest else e :: adel rest k

/-- In-place update `d[k] = f(d[k])` of an existing entry (the position
of the entry is preserved, as in CPython).  No-op when the key is
absent; Python would raise `KeyError`, which is unreachable where this
is used. -/
def amodify : List (Nat × ℚ) → Nat → (ℚ → ℚ) → List (Nat × ℚ)
  | [], _, _ => []
  | e :: rest, k, f => if e.1 = k then (k, f e.2) :: rest else e :: amodify rest k f

/-- `if k in d: d[k] += v else: d[k] = v` — the merge idiom used for
both the spawn buffer and the annihilation step; a fresh key is
appended at the end. -/
def aadd (m : List (Nat × ℚ)) (k : Nat) (v : ℚ) : List (Nat × ℚ) :=
  match alookup m k with
  | some _ => amodify m k (· + v)
  | none => m ++ [(k, v)]

/-- The keys of a walker dictionary. -/
def akeys (m : List (Nat × ℚ)) : List Nat :=
  m.map Prod.fst

/-- The configuration read by every iteration of the evolution loop:
the determinant-space dimension `ndet`, the dense Hamiltonian `full_h`,
and the simulation parameters `timestep`, `det_thresh` and the current
`shift`. -/
structure FciCfg where
  ndet : Nat
  h : Nat → Nat → ℚ
  timestep : ℚ
  det_thresh : ℚ
  shift : ℚ

/-- `h_sim = full_h - eye(ndet)*ref_energy` with
`ref_energy = full_h[0,0]`. -/
def h_sim (cfg : FciCfg) (i j : Nat) : ℚ :=
  cfg.h i j - (if i = j then cfg.h 0 0 else 0)

/-- `p_spawn = 1./(ndet-1)` (Python integer `ndet-1`, exact division). -/
def pSpawn (cfg : FciCfg) : ℚ :=
  1 / ((cfg.ndet : ℚ) - 1)

/-- The random draws consumed while processing one occupied determinant:
`u` is the stochastic-rounding draw `np.random.random()`, and
`target k` is the accepted spawn target of attempt `k`
(`np.random.randint(ndet)` redrawn `while spawn_ind == det_ind`). -/
structure WalkerDraws where
  u : ℚ
  target : Nat → Nat

/-- The per-iteration mutable state of the evolution loop: the walker
dictionary, the spawned-walker buffer, and the statistics accumulators
(`cycle_en_num`, `cycle_en_denom`, `ref_weight`, `nw`, `nocc_dets`). -/
structure IterState where
  walkers : List (Nat × ℚ)
  spawned : List (Nat × ℚ)
  en_num : ℚ
  en_denom : ℚ
  ref_weight : ℚ
  nw : ℚ
  nocc : Nat

/-- The energy-estimator accumulation at the top of the per-determinant
loop body: the reference determinant (index 0) feeds the denominator and
the reference weight, every other determinant feeds
`det_amp * h_sim[det_ind, 0]` into the numerator. -/
def accumStats (cfg : FciCfg) (det_ind : Nat) (det_amp : ℚ) (s : IterState) :
    IterState :=
  if det_ind = 0 then
    { s with en_denom := s.en_denom + det_amp, ref_weight := det_amp }
  else
    { s with en_num := s.en_num + det_amp * h_sim cfg det_ind 0 }

/-- The spawning and death steps executed for a determinant that
survived the stochastic rounding with working amplitude `det_amp`
(the local variable `det_amp` after the rounding block):
`nspawn = int(np.ceil(abs(det_amp)))` spawn attempts add
`-timestep*full_h[det_ind, spawn_ind]*det_amp/(p_spawn*nspawn)` into the
spawned-walker buffer, then the death step subtracts
`timestep*(full_h[det_ind,det_ind] - full_h[0,0] - shift)*det_amp`
from the dictionary entry `walkers[det_ind]`. -/
def processSurvivor (cfg : FciCfg) (dr : WalkerDraws) (det_ind : Nat)
    (det_amp : ℚ) (s : IterState) : IterState :=
  let s := { s with nw := s.nw + |det_amp|, nocc := s.nocc + 1 }
  let nspawn := ⌈|det_amp|⌉₊
  let s := { s with
    spawned := (List.range nspawn).foldl (fun buf k =>
      aadd buf (dr.target k)
        (-cfg.timestep * cfg.h det_ind (dr.target k) * det_amp /
          (pSpawn cfg * (nspawn : ℚ)))) s.spawned }
  { s with
    walkers := amodify s.walkers det_ind
      (fun w => w - cfg.timestep * (cfg.h det_ind det_ind - cfg.h 0 0 - cfg.shift) * det_amp) }

/-- One body of `for det_ind, det_amp in list(walkers.items())`:
statistics accumulation, stochastic rounding
(`chi = abs(det_amp)/det_thresh`; below threshold the walker survives
with probability `chi`, its working amplitude set to `det_thresh`, and
is otherwise deleted with `continue`), then spawning and death for the
survivors. -/
def processEntry (cfg : FciCfg) (dr : WalkerDraws) (e : Nat × ℚ)
    (s : IterState) : IterState :=
  let s := accumStats cfg e.1 e.2 s
  let chi := |e.2| / cfg.det_thresh
  if chi < 1 then
    if dr.u < chi then processSurvivor cfg dr e.1 cfg.det_thresh s
    else { s with walkers := adel s.walkers e.1 }
  else processSurvivor cfg dr e.1 e.2 s

/-- The sweep over the snapshot `list(walkers.items())`, feeding entry
number `i` the draws `draws i`. -/
def sweepAux (cfg : FciCfg) (draws : Nat → WalkerDraws) :
    List (Nat × ℚ) → Nat → IterState → IterState
  | [], _, s => s
  | e :: rest, i, s => sweepAux cfg draws rest (i + 1) (processEntry cfg (draws i) e s)

/-- The per-iteration state at the start of an iteration: the walker
dictionary carried over, an empty spawn buffer, and the per-iteration
statistics reset (`nw`, `ref_weight`, `nocc_dets`; the cycle energy
accumulators start from the values carried in by the caller, taken as
`0` here). -/
def initState (w0 : List (Nat × ℚ)) : IterState :=
  { walkers := w0, spawned := [], en_num := 0, en_denom := 0
    ref_weight := 0, nw := 0, nocc := 0 }

/-- The whole per-determinant sweep of one iteration, before
annihilation. -/
def sweepRun (cfg : FciCfg) (draws : Nat → WalkerDraws)
    (w0 : List (Nat × ℚ)) : IterState :=
  sweepAux cfg draws w0 0 (initState w0)

/-- The annihilation step: merge every spawned-buffer entry into the
main walker dictionary. -/
def annihilate (m buf : List (Nat × ℚ)) : List (Nat × ℚ) :=
  buf.foldl (fun m e => aadd m e.1 e.2) m

/-- One full iteration of the evolution loop of `fciqmc_partI.py`:
the per-determinant sweep over the snapshot of the previous iteration's
entries, followed by annihilation of the spawned-walker buffer. -/
def iterateFciqmc (cfg : FciCfg) (draws : Nat → WalkerDraws)
    (w0 : List (Nat × ℚ)) : IterState :=
  let s := sweepRun cfg draws w0
  { s with walkers := annihilate s.walkers s.spawned }

/-- Spec-side formula: `Σ_p H1[p,p]` over the occupied orbitals. -/
def specH1Sum (H : HAM) (det : List Nat) : ℚ :=
  ∑ p ∈ det.toFinset, H.h1 p p

/-- Spec-side formula: `Σ_{p<q, both occupied} (H2[p,p,q,q] − H2[p,q,q,p])`. -/
def specPairSum (H : HAM) (det : List Nat) : ℚ :=
  ∑ p ∈ det.toFinset, ∑ q ∈ det.toFinset.filter (fun q => p < q),
    (H.h2 p p q q - H.h2 p q q p)

/-- The excited determinant built by the first substitution of
`HAM.excit_gen`: overwrite position `ind` with `t`, then re-sort. -/
def singleExcite (det : List Nat) (ind t : Nat) : List Nat :=
  pySorted (det.set ind t)

/-- The excited determinant built by a double excitation in
`HAM.excit_gen`: a second overwrite-and-sort on top of the first. -/
def doubleExcite (det : List Nat) (ind t ind2 t2 : Nat) : List Nat :=
  pySorted ((singleExcite det ind t).set ind2 t2)

/-- Combination of a map value and a merged buffer value under `aadd`:
absent/absent stays absent, one-sided keeps the present value, both
present add. -/
def combine : Option ℚ → Option ℚ → Option ℚ
  | none, o => o
  | some x, none => some x
  | some x, some y => some (x + y)

/-- The outcome of the stochastic-rounding block on a walker of
amplitude `amp`: `some` of the working amplitude used for the rest of
the iteration (the literal `det_thresh` for a surviving below-threshold
walker), `none` for a deleted one. -/
def survivedAmp (cfg : FciCfg) (dr : WalkerDraws) (amp : ℚ) : Option ℚ :=
  if |amp| / cfg.det_thresh < 1 then
    if dr.u < |amp| / cfg.det_thresh then some cfg.det_thresh else none
  else some amp

/-- The (target, weight) pairs produced by the spawn attempts of one
surviving walker: attempt `k` targets `dr.target k` with weight
`-timestep*full_h[det_ind, spawn_ind]*det_amp/(p_spawn*nspawn)` where
`nspawn = int(np.ceil(abs(det_amp)))`. -/
def spawnPairs (cfg : FciCfg) (dr : WalkerDraws) (det_ind : Nat)
    (det_amp : ℚ) : List (Nat × ℚ) :=
  (List.range ⌈|det_amp|⌉₊).map (fun k =>
    (dr.target k,
      -cfg.timestep * cfg.h det_ind (dr.target k) * det_amp /
        (pSpawn cfg * ((⌈|det_amp|⌉₊ : Nat) : ℚ))))

/-- Concrete two-determinant configuration with `H[1,1] = 1`, all other
entries `0`, unit time step, threshold `1/4`, zero shift. -/
def cfgRound : FciCfg :=
  ⟨2, fun i j => if i = 1 ∧ j = 1 then 1 else 0, 1, 1/4, 0⟩

/-- `cfgRound` with zero time step. -/
def cfgRound0 : FciCfg :=
  ⟨2, fun i j => if i = 1 ∧ j = 1 then 1 else 0, 0, 1/4, 0⟩

/-- Rounding draw `1/10`, all spawn targets `0`. -/
def drRound : WalkerDraws :=
  ⟨1/10, fun _ => 0⟩

/-- Two-determinant zero Hamiltonian with zero time step and threshold
`1/4`. -/
def cfgZero : FciCfg :=
  ⟨2, fun _ _ => 0, 0, 1/4, 0⟩

/-- Per-entry draws: rounding draw `0`, all spawn targets `1`. -/
def drZero : Nat → WalkerDraws :=
  fun _ => ⟨0, fun _ => 1⟩

/-- The unoccupied spin orbitals: the complement of the determinant in
the `2*nbasis` spin-orbital basis.  The `while orb_to in det` rejection
loop of `HAM.excit_gen` draws its accepted value uniformly from this
set. -/
def virt (H : HAM) (det : List Nat) : Finset Nat :=
  Finset.range (2 * H.nbasis) \ det.toFinset

/-- All distinct single-excitation outcomes reachable by `HAM.excit_gen`
from `det`: one position draw and one accepted unoccupied target. -/
def singlesOf (H : HAM) (det : List Nat) : Finset (List Nat) :=
  ((Finset.range det.length) ×ˢ virt H det).image
    (fun p => singleExcite det p.1 p.2)

/-- The acceptance set of the second-substitution rejection loop of the
double branch of `HAM.excit_gen`, for accepted first draws `(ind, t)`:
pairs `(ind2, orb_to_2)` whose exit condition
`not (orb_to_2 in excited_det or orb_to_2 == orb_from or
orb_from_2 == orb_to)` holds, with `orb_from_2 = excited_det[ind2]` and
`orb_from = det[ind]`. -/
def accept2 (H : HAM) (det : List Nat) (ind t : Nat) : Finset (Nat × Nat) :=
  ((Finset.range det.length).filter
      (fun i2 => (singleExcite det ind t).getD i2 0 ≠ t)) ×ˢ
  ((Finset.range (2 * H.nbasis)).filter
      (fun t2 => t2 ∉ singleExcite det ind t ∧ t2 ≠ det.getD ind 0))

/-- All distinct double-excitation outcomes reachable by `HAM.excit_gen`
from `det`. -/
def doublesOf (H : HAM) (det : List Nat) : Finset (List Nat) :=
  ((Finset.range det.length) ×ˢ virt H det).biUnion
    (fun p => (accept2 H det p.1 p.2).image
      (fun q => doubleExcite det p.1 p.2 q.1 q.2))

/-- The double-excitation outcomes described pairwise: remove an
unordered pair of occupied orbitals, add an unordered pair of
unoccupied ones, and list the result in ascending order. -/
def doublesPairs (H : HAM) (det : List Nat) : Finset (List Nat) :=
  ((det.toFinset.powersetCard 2) ×ˢ ((virt H det).powersetCard 2)).image
    (fun PQ => Finset.sort (· ≤ ·) ((det.toFinset \ PQ.1) ∪ PQ.2))

/-- The probability that the sampling procedure of `HAM.excit_gen`
produces the single-excitation outcome `D`: Bernoulli branch weight
`p_single`, a uniform position among the `len(det)` occupied slots, and
a uniform accepted target among the unoccupied orbitals (the
redraw-until-valid loop produces the uniform distribution on its
acceptance set). -/
def trueProbSingle (H : HAM) (det : List Nat) (D : List Nat) : ℚ :=
  H.p_single *
    ∑ p ∈ (Finset.range det.length) ×ˢ virt H det,
      if singleExcite det p.1 p.2 = D
      then 1 / ((det.length : ℚ) * ((virt H det).card : ℚ)) else 0

/-- The probability that the sampling procedure of `HAM.excit_gen`
produces the double-excitation outcome `D`: branch weight
`1 - p_single`, uniform accepted first draws, then a uniform accepted
pair from the joint acceptance set of the second rejection loop. -/
def trueProbDouble (H : HAM) (det : List Nat) (D : List Nat) : ℚ :=
  (1 - H.p_single) *
    ∑ p ∈ (Finset.range det.length) ×ˢ virt H det,
      (1 / ((det.length : ℚ) * ((virt H det).card : ℚ))) *
        ∑ q ∈ accept2 H det p.1 p.2,
          if doubleExcite det p.1 p.2 q.1 q.2 = D
          then 1 / ((accept2 H det p.1 p.2).card : ℚ) else 0

/-- A concrete Hamiltonian on 2 spatial orbitals (4 spin orbitals) with
2 electrons and `p_single = 1/2`, used to instantiate the probability
theorems. -/
def HC3 : HAM :=
  ⟨0, fun _ _ => 0, fun _ _ _ _ => 0, 2, 2, 1/2⟩

/-- A heap of Python lists: mutation is visible only through the store,
so a function can alter a caller's list only by writing to the cell it
was passed.  Used to settle the frame claim about `HAM.excit_gen`,
`elec_exchange_ops` and `calc_excit_mat_parity`. -/
structure Store where
  cells : List (List Nat)

/-- Dereference a cell (out-of-range reads are unreachable under the
in-bounds hypotheses used below). -/
def Store.read (σ : Store) (r : Nat) : List Nat :=
  σ.cells.getD r []

/-- In-place assignment to a cell, as performed by `lst[i] = v`. -/
def Store.write (σ : Store) (r : Nat) (v : List Nat) : Store :=
  ⟨σ.cells.set r v⟩

/-- Allocation of a fresh list (`.copy()`, `sorted(...)`): appends a new
cell and returns its reference. -/
def Store.alloc (σ : Store) (v : List Nat) : Store × Nat :=
  (⟨σ.cells ++ [v]⟩, σ.cells.length)

/-- `elec_exchange_ops` in the store model: `det_copy = det.copy()`
allocates a fresh cell; every `det_copy[...] = ...` swap assignment of
the bubbling loop writes to that fresh cell (their aggregate effect is
the final contents computed by `eeoLoop`); the argument list is only
read. -/
def elec_exchange_opsS (σ : Store) (det : Nat) (ind : Int) : Nat × Store :=
  let d := σ.read det
  let ac := σ.alloc d
  let r := eeoLoop d.length d ind (eeoStep d ind) 0
  (r.1, ac.1.write ac.2 r.2)

/-- The relabelling loop of `calc_excit_mat_parity` in the store model:
`det_copy[ind] = to_orb` writes to the current working cell,
`elec_exchange_ops(det_copy, ind)` makes its own copy, and
`det_copy = sorted(det_copy)` rebinds the local name to a freshly
allocated list. -/
def cempLoopS (σ : Store) (c : Nat) : List (Nat × Nat) → Nat × Store
  | [] => (0, σ)
  | (from_orb, to_orb) :: rest =>
    let dc := σ.read c
    let ind := dc.indexOf from_orb
    let σ₁ := σ.write c (dc.set ind to_orb)
    let pe := elec_exchange_opsS σ₁ c (ind : Int)
    let ac := pe.2.alloc (pySorted (pe.2.read c))
    let pr := cempLoopS ac.1 ac.2 rest
    (pe.1 + pr.1, pr.2)

/-- `calc_excit_mat_parity` in the store model: the two argument lists
are read to build `from_orbs`/`to_orbs`, `det_copy = det.copy()`
allocates the only locally mutated list, and the result is as in the
pure embedding. -/
def calc_excit_mat_parityS (σ : Store) (det excited_det : Nat) :
    (Option (List Nat × List Nat) × Option Int) × Store :=
  let dl := σ.read det
  let el := σ.read excited_det
  let from_orbs := dl.filter (fun x => decide (x ∉ el))
  let to_orbs := el.filter (fun x => decide (x ∉ dl))
  let excit_mat : List Nat × List Nat := (from_orbs, to_orbs)
  let ac := σ.alloc dl
  let pr := cempLoopS ac.1 ac.2 (from_orbs.zip to_orbs)
  let parity : Int := (-1 : Int) ^ pr.1
  (if ([excit_mat.1, excit_mat.2] : List (List Nat)) = [] then (none, none)
   else (some excit_mat, some parity), pr.2)

/-- `HAM.excit_gen` in the store model: `excited_det = det.copy()`
allocates a fresh cell, the substitutions `excited_det[ind] = ...`
write to the current working cell, and each
`excited_det = sorted(excited_det)` rebinds the name to a freshly
allocated list; the argument list is only read (membership tests of the
rejection loop). -/
def excit_genS (σ : Store) (H : HAM) (det : Nat) (d : ExcitDraws) :
    ExcitResult × Store :=
  let dl := σ.read det
  let a1 := σ.alloc dl
  let orb_from := (a1.1.read a1.2).getD d.ind 0
  let σ₂ := a1.1.write a1.2 ((a1.1.read a1.2).set d.ind d.orb_to)
  let pe := elec_exchange_opsS σ₂ a1.2 (d.ind : Int)
  let a2 := pe.2.alloc (pySorted (pe.2.read a1.2))
  if d.single then
    ({ excited_det := a2.1.read a2.2
       excit_mat := ([orb_from], [d.orb_to])
       parity := (-1 : Int) ^ pe.1
       prob := reportedProbSingle H }, a2.1)
  else
    let orb_from_2 := (a2.1.read a2.2).getD d.ind2 0
    let σ₅ := a2.1.write a2.2 ((a2.1.read a2.2).set d.ind2 d.orb_to_2)
    let pe2 := elec_exchange_opsS σ₅ a2.2 (d.ind2 : Int)
    let a3 := pe2.2.alloc (pySorted (pe2.2.read a2.2))
    ({ excited_det := a3.1.read a3.2
       excit_mat := ([orb_from, orb_from_2], [d.orb_to, d.orb_to_2])
       parity := (-1 : Int) ^ (pe.1 + pe2.1)
       prob := reportedProbDouble H }, a3.1)

/-! ## Lemmas and theorems -/

/-! ## Claim C2 / C9 / C4: Slater-Condon rules and the excitation
descriptor of identical determinants -/

lemma specPairSum_cons (H : HAM) (p : Nat) (rest : List Nat)
    (hnd : rest.Nodup) (hlt : ∀ q ∈ rest, p < q) :
    specPairSum H (p :: rest)
      = (rest.map (fun q => H.h2 p p q q - H.h2 p q q p)).sum + specPairSum H rest := by
  have hp : p ∉ rest.toFinset := by
    intro hmem
    exact lt_irrefl p (hlt p (List.mem_toFinset.mp hmem))
  unfold specPairSum
  rw [List.toFinset_cons, Finset.sum_insert hp]
  have h1 : (insert p rest.toFinset).filter (fun q => p < q) = rest.toFinset := by
    rw [Finset.filter_insert]
    simp only [lt_irrefl, if_false]
    exact Finset.filter_true_of_mem (fun q hq => hlt q (List.mem_toFinset.mp hq))
  have h2 : ∀ x ∈ rest.toFinset,
      (insert p rest.toFinset).filter (fun q => x < q) = rest.toFinset.filter (fun q => x < q) := by
    intro x hx
    rw [Finset.filter_insert]
    have : ¬ x < p := not_lt_of_gt (hlt x (List.mem_toFinset.mp hx))
    simp [this]
  rw [h1, List.sum_toFinset _ hnd]
  congr 1
  exact Finset.sum_congr rfl (fun x hx => by rw [h2 x hx])

lemma diagTerms_eq_spec (H : HAM) (det : List Nat) (hs : det.Sorted (· < ·)) :
    diagTerms H det = specH1Sum H det + specPairSum H det := by
  induction det with
  | nil => simp [diagTerms, specH1Sum, specPairSum]
  | cons p rest ih =>
    rw [List.sorted_cons] at hs
    obtain ⟨hlt, hrest⟩ := hs
    have hnd : rest.Nodup := hrest.nodup
    have hp : p ∉ rest.toFinset := by
      intro hmem
      exact lt_irrefl p (hlt p (List.mem_toFinset.mp hmem))
    rw [diagTerms, ih hrest, specPairSum_cons H p rest hnd hlt]
    unfold specH1Sum
    rw [List.toFinset_cons, Finset.sum_insert hp]
    ring

/-- C2.  For every sorted duplicate-free determinant, `HAM.slater_condon`
returns: the diagonal Slater-Condon expression
`E_nn + Σ_p H1[p,p] + Σ_{p<q occupied} (H2[p,p,q,q] − H2[p,q,q,p])` when
the excitation matrix is absent; `H1[i,a] + Σ_{q occupied}
(H2[i,a,q,q] − H2[i,q,q,a])` for a rank-1 descriptor `(i → a)`;
`H2[i,a,j,b] − H2[i,b,j,a]` for a rank-2 descriptor `(i,j) → (a,b)`;
exactly `0` for rank above 2; and in every case the result is multiplied
by the parity when one is supplied. -/
theorem C2_slater_condon (H : HAM) (det : List Nat) (hs : det.Sorted (· < ·)) :
    (∀ parity, slater_condon H det none parity
      = applyParity parity (H.nn + specH1Sum H det + specPairSum H det))
    ∧ (∀ i a parity, slater_condon H det (some ([i], [a])) parity
      = applyParity parity
          (H.h1 i a + ∑ q ∈ det.toFinset, (H.h2 i a q q - H.h2 i q q a)))
    ∧ (∀ i j a b parity, slater_condon H det (some ([i, j], [a, b])) parity
      = applyParity parity (H.h2 i a j b - H.h2 i b j a))
    ∧ (∀ em parity, 2 < em.1.length → slater_condon H det (some em) parity = 0)
    ∧ (∀ em p, slater_condon H det em (some p) = slater_condon H det em none * (p : ℚ)) := by
  refine ⟨?_, ?_, ?_, ?_, ?_⟩
  · intro parity
    rw [slater_condon, diagTerms_eq_spec H det hs, add_assoc]
  · intro i a parity
    rw [slater_condon, List.sum_toFinset _ hs.nodup]
  · intro i a j b parity
    rfl
  · intro em parity hlen
    obtain ⟨l1, l2⟩ := em
    simp only at hlen
    match l1, hlen with
    | x :: y :: z :: tl, _ =>
      cases parity <;> simp [slater_condon, applyParity]
  · intro em p
    cases em with
    | none => rfl
    | some em => rfl

/-- C9.  A non-`None` excitation matrix whose first tuple has length 0
(such as the `[(), ()]` produced by `calc_excit_mat_parity` on identical
determinants) or length above 2 makes `HAM.slater_condon` return
`0` (times the parity, when supplied) — not the diagonal matrix element,
as the concrete instance at the end shows. -/
theorem C9_degenerate_descriptor :
    (∀ (H : HAM) (det : List Nat) (em : List Nat × List Nat) (parity : Option Int),
      em.1.length = 0 ∨ 2 < em.1.length → slater_condon H det (some em) parity = 0)
    ∧ slater_condon ⟨1, fun _ _ => 0, fun _ _ _ _ => 0, 0, 0, 0⟩ []
        (some ([], [])) (some 1) = 0
    ∧ slater_condon ⟨1, fun _ _ => 0, fun _ _ _ _ => 0, 0, 0, 0⟩ [] none (some 1) = 1 := by
  refine ⟨?_, by simp [slater_condon, applyParity], by simp [slater_condon, applyParity, diagTerms]⟩
  intro H det em parity hlen
  obtain ⟨l1, l2⟩ := em
  simp only at hlen
  rcases hlen with h0 | h3
  · have : l1 = [] := List.length_eq_zero.mp h0
    subst this
    cases parity <;> cases l2 <;> simp [slater_condon, applyParity]
  · match l1, h3 with
    | x :: y :: z :: tl, _ =>
      cases parity <;> simp [slater_condon, applyParity]

/-- C9 witness: the rank-0 descriptor case at a concrete input. -/
theorem C9_witness :
    slater_condon ⟨1, fun _ _ => 0, fun _ _ _ _ => 0, 0, 0, 0⟩ [0, 1]
      (some ([], [])) none = 0 :=
  C9_degenerate_descriptor.1 ⟨1, fun _ _ => 0, fun _ _ _ _ => 0, 0, 0, 0⟩
    [0, 1] ([], []) none (Or.inl rfl)

/-- C4.  `calc_excit_mat_parity` on two identical determinants returns
the descriptor `([(), ()], 1)`, never the absent (`None`) descriptor the
documentation promises: the guard `if not list(excit_mat)` tests the
two-element list `[tuple(from_orbs), tuple(to_orbs)]`, which is never
empty, so the `excit_mat = parity = None` branch is dead code. -/
theorem C4_identical_dets_eval :
    (∀ det : List Nat, calc_excit_mat_parity det det = (some ([], []), some 1))
    ∧ calc_excit_mat_parity [0, 1] [0, 1] ≠ (none, none) := by
  have hall : ∀ det : List Nat, calc_excit_mat_parity det det = (some ([], []), some 1) := by
    intro det
    have hfil : det.filter (fun x => !decide (x ∈ det)) = [] := by
      rw [List.filter_eq_nil_iff]
      intro a ha
      simp [ha]
    simp [calc_excit_mat_parity, hfil, cempLoop]
  refine ⟨hall, ?_⟩
  rw [hall [0, 1]]
  simp

/-! ## Claim C8: the excited determinant is sorted, same-length,
duplicate-free -/

lemma excit_gen_excited_single (H : HAM) (det : List Nat) (d : ExcitDraws)
    (h : d.single = true) :
    (excit_gen H det d).excited_det = singleExcite det d.ind d.orb_to := by
  simp [excit_gen, h, singleExcite]

lemma excit_gen_excited_double (H : HAM) (det : List Nat) (d : ExcitDraws)
    (h : d.single = false) :
    (excit_gen H det d).excited_det
      = doubleExcite det d.ind d.orb_to d.ind2 d.orb_to_2 := by
  simp [excit_gen, h, doubleExcite, singleExcite]

lemma pySorted_perm (l : List Nat) : List.Perm (pySorted l) l :=
  List.perm_insertionSort (· ≤ ·) l

lemma pySorted_props {l : List Nat} (hnd : l.Nodup) :
    (pySorted l).Sorted (· < ·) ∧ (pySorted l).length = l.length
      ∧ (pySorted l).Nodup := by
  have hperm := pySorted_perm l
  have hnd' : (pySorted l).Nodup := hperm.nodup_iff.mpr hnd
  exact ⟨(List.sorted_insertionSort (· ≤ ·) l).lt_of_le hnd', hperm.length_eq, hnd'⟩

lemma singleExcite_props {l : List Nat} (i t : Nat) (hnd : l.Nodup)
    (ht : t ∉ l) :
    (singleExcite l i t).Sorted (· < ·) ∧ (singleExcite l i t).length = l.length
      ∧ (singleExcite l i t).Nodup := by
  have hset : (l.set i t).Nodup := hnd.set ht
  obtain ⟨hs, hl, hn⟩ := pySorted_props hset
  refine ⟨hs, ?_, hn⟩
  rw [singleExcite, hl, List.length_set]

/-- C8.  For every sorted duplicate-free input determinant and accepted
random draws (the first substitution target not occupied; for the
double branch, the second target not occupied in the once-excited
determinant), the excited determinant returned by `HAM.excit_gen` is
sorted ascending, has the same length as the input, and contains no
duplicates. -/
theorem C8_excit_gen_invariants (H : HAM) (det : List Nat) (d : ExcitDraws)
    (hs : det.Sorted (· < ·)) (hto : d.orb_to ∉ det)
    (hto2 : d.single = false → d.orb_to_2 ∉ singleExcite det d.ind d.orb_to) :
    (excit_gen H det d).excited_det.Sorted (· < ·)
    ∧ (excit_gen H det d).excited_det.length = det.length
    ∧ (excit_gen H det d).excited_det.Nodup := by
  have hnd : det.Nodup := hs.nodup
  cases hsingle : d.single with
  | true =>
    rw [excit_gen_excited_single H det d hsingle]
    exact singleExcite_props d.ind d.orb_to hnd hto
  | false =>
    rw [excit_gen_excited_double H det d hsingle]
    obtain ⟨hs1, hl1, hn1⟩ := singleExcite_props d.ind d.orb_to hnd hto
    obtain ⟨hs2, hl2, hn2⟩ :=
      singleExcite_props d.ind2 d.orb_to_2 hn1 (hto2 hsingle)
    exact ⟨hs2, by rw [doubleExcite, ← singleExcite, hl2, hl1], hn2⟩

/-- C8 witness: a concrete double excitation of `[0, 1]`. -/
theorem C8_witness :
    (excit_gen ⟨0, fun _ _ => 0, fun _ _ _ _ => 0, 2, 2, 1/2⟩ [0, 1]
        ⟨false, 0, 2, 0, 3⟩).excited_det.Sorted (· < ·)
    ∧ (excit_gen ⟨0, fun _ _ => 0, fun _ _ _ _ => 0, 2, 2, 1/2⟩ [0, 1]
        ⟨false, 0, 2, 0, 3⟩).excited_det.length = ([0, 1] : List Nat).length
    ∧ (excit_gen ⟨0, fun _ _ => 0, fun _ _ _ _ => 0, 2, 2, 1/2⟩ [0, 1]
        ⟨false, 0, 2, 0, 3⟩).excited_det.Nodup :=
  C8_excit_gen_invariants ⟨0, fun _ _ => 0, fun _ _ _ _ => 0, 2, 2, 1/2⟩
    [0, 1] ⟨false, 0, 2, 0, 3⟩ (by decide) (by decide) (fun _ => by decide)

/-- C2 witness: the diagonal, single, double, high-rank and parity
conclusions at a concrete Hamiltonian and determinant. -/
theorem C2_witness :
    slater_condon ⟨3, fun p q => (p : ℚ) + q, fun p q r s => (p : ℚ) + q + r + s, 2, 2, 1/2⟩
        [0, 2] none none
      = applyParity none
          ((3 : ℚ) + specH1Sum ⟨3, fun p q => (p : ℚ) + q, fun p q r s => (p : ℚ) + q + r + s, 2, 2, 1/2⟩ [0, 2]
            + specPairSum ⟨3, fun p q => (p : ℚ) + q, fun p q r s => (p : ℚ) + q + r + s, 2, 2, 1/2⟩ [0, 2]) :=
  (C2_slater_condon ⟨3, fun p q => (p : ℚ) + q, fun p q r s => (p : ℚ) + q + r + s, 2, 2, 1/2⟩
    [0, 2] (by decide)).1 none

/-! ## Association-list lemmas for the walker dictionary -/

lemma akeys_cons (e : Nat × ℚ) (rest : List (Nat × ℚ)) :
    akeys (e :: rest) = e.1 :: akeys rest := rfl

lemma alookup_eq_none {m : List (Nat × ℚ)} {k : Nat} :
    alookup m k = none ↔ k ∉ akeys m := by
  induction m with
  | nil => simp [alookup, akeys]
  | cons e rest ih =>
    by_cases h : e.1 = k
    · subst h
      simp [alookup, akeys_cons]
    · have hne : k ≠ e.1 := fun hc => h hc.symm
      simp [alookup, akeys_cons, h, ih, hne]

lemma akeys_amodify (m : List (Nat × ℚ)) (k : Nat) (f : ℚ → ℚ) :
    akeys (amodify m k f) = akeys m := by
  induction m with
  | nil => rfl
  | cons e rest ih =>
    by_cases h : e.1 = k <;> simp [amodify, h, akeys_cons, ih]

lemma alookup_amodify_self (m : List (Nat × ℚ)) (k : Nat) (f : ℚ → ℚ) :
    alookup (amodify m k f) k = (alookup m k).map f := by
  induction m with
  | nil => rfl
  | cons e rest ih =>
    by_cases h : e.1 = k <;> simp [amodify, alookup, h, ih]

lemma alookup_amodify_ne (m : List (Nat × ℚ)) (k : Nat) (f : ℚ → ℚ)
    (k' : Nat) (h : k' ≠ k) :
    alookup (amodify m k f) k' = alookup m k' := by
  have hkk : ¬ k = k' := fun hc => h hc.symm
  induction m with
  | nil => rfl
  | cons e rest ih =>
    by_cases h1 : e.1 = k
    · have h2 : ¬ e.1 = k' := fun hc => hkk (h1 ▸ hc)
      simp [amodify, alookup, h1, h2, hkk]
    · by_cases h2 : e.1 = k'
      · simp [amodify, alookup, h1, h2, h]
      · simp [amodify, alookup, h1, h2, ih]

lemma alookup_append (m1 m2 : List (Nat × ℚ)) (k : Nat) :
    alookup (m1 ++ m2) k = (alookup m1 k).or (alookup m2 k) := by
  induction m1 with
  | nil => simp [alookup]
  | cons e rest ih =>
    by_cases h : e.1 = k <;> simp [alookup, h, ih]

lemma alookup_aadd_self (m : List (Nat × ℚ)) (k : Nat) (v : ℚ) :
    alookup (aadd m k v) k = combine (alookup m k) (some v) := by
  unfold aadd
  cases h : alookup m k with
  | some x => rw [alookup_amodify_self, h]; rfl
  | none => rw [alookup_append, h]; simp [alookup, combine]

lemma alookup_aadd_ne (m : List (Nat × ℚ)) (k : Nat) (v : ℚ) (k' : Nat)
    (h : k' ≠ k) :
    alookup (aadd m k v) k' = alookup m k' := by
  have hkk : ¬ k = k' := fun hc => h hc.symm
  unfold aadd
  cases hl : alookup m k with
  | some x => exact alookup_amodify_ne m k _ k' h
  | none =>
    rw [alookup_append]
    have h1 : alookup [(k, v)] k' = none := by simp [alookup, hkk]
    rw [h1]
    cases alookup m k' <;> rfl

lemma akeys_aadd_nodup {m : List (Nat × ℚ)} (h : (akeys m).Nodup) (k : Nat)
    (v : ℚ) : (akeys (aadd m k v)).Nodup := by
  unfold aadd
  cases hl : alookup m k with
  | some x => rw [akeys_amodify]; exact h
  | none =>
    have hk : k ∉ akeys m := alookup_eq_none.mp hl
    have happ : akeys (m ++ [(k, v)]) = akeys m ++ [k] := by simp [akeys]
    rw [happ, List.nodup_append]
    refine ⟨h, List.nodup_singleton k, ?_⟩
    intro a ha hak
    rw [List.mem_singleton] at hak
    exact hk (hak ▸ ha)

lemma foldl_aadd_nodup (L : List (Nat × ℚ)) :
    ∀ {b0 : List (Nat × ℚ)}, (akeys b0).Nodup →
      (akeys (L.foldl (fun b e => aadd b e.1 e.2) b0)).Nodup := by
  induction L with
  | nil => intro b0 h; exact h
  | cons e rest ih => intro b0 h; exact ih (akeys_aadd_nodup h e.1 e.2)

lemma annihilate_lookup {buf : List (Nat × ℚ)} (m : List (Nat × ℚ)) (k : Nat)
    (h : (akeys buf).Nodup) :
    alookup (annihilate m buf) k = combine (alookup m k) (alookup buf k) := by
  induction buf generalizing m with
  | nil => cases h1 : alookup m k <;> simp [annihilate, h1, alookup, combine]
  | cons e rest ih =>
    have hstep : annihilate m (e :: rest) = annihilate (aadd m e.1 e.2) rest := rfl
    rw [akeys_cons, List.nodup_cons] at h
    rw [hstep, ih _ h.2]
    by_cases hk : k = e.1
    · have hr : alookup rest k = none := by
        rw [hk]; exact alookup_eq_none.mpr h.1
      have he1 : e.1 = k := hk.symm
      have hb : alookup (e :: rest) k = some e.2 := by simp [alookup, he1]
      have ha : alookup (aadd m e.1 e.2) k = combine (alookup m k) (some e.2) := by
        rw [hk]; exact alookup_aadd_self m e.1 e.2
      rw [hr, hb, ha]
      cases alookup m k <;> simp [combine, add_assoc]
    · have hne : ¬ e.1 = k := fun hc => hk hc.symm
      have hb : alookup (e :: rest) k = alookup rest k := by simp [alookup, hne]
      rw [hb, alookup_aadd_ne m e.1 e.2 k hk]

/-! ## Claims C5, C6, C7, C1: structure of one evolution iteration -/

lemma accumStats_walkers (cfg : FciCfg) (d : Nat) (a : ℚ) (s : IterState) :
    (accumStats cfg d a s).walkers = s.walkers := by
  unfold accumStats
  split <;> rfl

lemma accumStats_spawned (cfg : FciCfg) (d : Nat) (a : ℚ) (s : IterState) :
    (accumStats cfg d a s).spawned = s.spawned := by
  unfold accumStats
  split <;> rfl

lemma accumStats_nw (cfg : FciCfg) (d : Nat) (a : ℚ) (s : IterState) :
    (accumStats cfg d a s).nw = s.nw := by
  unfold accumStats
  split <;> rfl

lemma accumStats_nocc (cfg : FciCfg) (d : Nat) (a : ℚ) (s : IterState) :
    (accumStats cfg d a s).nocc = s.nocc := by
  unfold accumStats
  split <;> rfl

lemma processSurvivor_spawned (cfg : FciCfg) (dr : WalkerDraws) (d : Nat)
    (a : ℚ) (s : IterState) :
    (processSurvivor cfg dr d a s).spawned
      = (spawnPairs cfg dr d a).foldl (fun b e => aadd b e.1 e.2) s.spawned := by
  simp [processSurvivor, spawnPairs, List.foldl_map]

lemma processSurvivor_walkers (cfg : FciCfg) (dr : WalkerDraws) (d : Nat)
    (a : ℚ) (s : IterState) :
    (processSurvivor cfg dr d a s).walkers
      = amodify s.walkers d
          (fun w => w - cfg.timestep * (cfg.h d d - cfg.h 0 0 - cfg.shift) * a) := by
  simp [processSurvivor]

lemma processEntry_of_survived (cfg : FciCfg) (dr : WalkerDraws) (e : Nat × ℚ)
    (s : IterState) (a' : ℚ) (h : survivedAmp cfg dr e.2 = some a') :
    processEntry cfg dr e s
      = processSurvivor cfg dr e.1 a' (accumStats cfg e.1 e.2 s) := by
  unfold survivedAmp at h
  unfold processEntry
  by_cases h1 : |e.2| / cfg.det_thresh < 1
  · by_cases h2 : dr.u < |e.2| / cfg.det_thresh
    · rw [if_pos h1, if_pos h2] at h ⊢
      rw [Option.some.injEq] at h
      rw [h]
    · rw [if_pos h1, if_neg h2] at h
      exact absurd h (by simp)
  · rw [if_neg h1] at h ⊢
    rw [Option.some.injEq] at h
    rw [h]

lemma processEntry_of_deleted (cfg : FciCfg) (dr : WalkerDraws) (e : Nat × ℚ)
    (s : IterState) (h : survivedAmp cfg dr e.2 = none) :
    processEntry cfg dr e s
      = { accumStats cfg e.1 e.2 s with
          walkers := adel (accumStats cfg e.1 e.2 s).walkers e.1 } := by
  unfold survivedAmp at h
  unfold processEntry
  by_cases h1 : |e.2| / cfg.det_thresh < 1
  · by_cases h2 : dr.u < |e.2| / cfg.det_thresh
    · rw [if_pos h1, if_pos h2] at h
      exact absurd h (by simp)
    · rw [if_pos h1, if_neg h2]
  · rw [if_neg h1] at h
    exact absurd h (by simp)

lemma processEntry_spawned_nodup (cfg : FciCfg) (dr : WalkerDraws)
    (e : Nat × ℚ) (s : IterState) (h : (akeys s.spawned).Nodup) :
    (akeys (processEntry cfg dr e s).spawned).Nodup := by
  cases hs : survivedAmp cfg dr e.2 with
  | some a' =>
    rw [processEntry_of_survived cfg dr e s a' hs, processSurvivor_spawned,
      accumStats_spawned]
    exact foldl_aadd_nodup _ h
  | none =>
    rw [processEntry_of_deleted cfg dr e s hs]
    simpa [accumStats_spawned] using h

lemma sweepAux_spawned_nodup (cfg : FciCfg) (draws : Nat → WalkerDraws)
    (L : List (Nat × ℚ)) :
    ∀ (i : Nat) (s : IterState), (akeys s.spawned).Nodup →
      (akeys (sweepAux cfg draws L i s).spawned).Nodup := by
  induction L with
  | nil => intro i s h; exact h
  | cons e rest ih =>
    intro i s h
    exact ih (i + 1) _ (processEntry_spawned_nodup cfg (draws i) e s h)

lemma sweepRun_spawned_nodup (cfg : FciCfg) (draws : Nat → WalkerDraws)
    (w0 : List (Nat × ℚ)) :
    (akeys (sweepRun cfg draws w0).spawned).Nodup := by
  exact sweepAux_spawned_nodup cfg draws w0 0 (initState w0) (by simp [initState, akeys])

/-- C6.  In every iteration, the spawned weight is merged into the main
walker map only after the per-determinant sweep over the snapshot has
completed: the iteration's final population at each determinant is the
sweep-only population combined with the spawned-buffer total at that
determinant, the final map is literally the annihilation of the
completed sweep's map with the completed sweep's buffer, and all
statistics and rounding/spawn/death effects of the iteration are those
of the buffer-free sweep. -/
theorem C6_annihilation_after_sweep (cfg : FciCfg)
    (draws : Nat → WalkerDraws) (w0 : List (Nat × ℚ)) :
    (iterateFciqmc cfg draws w0).walkers
      = annihilate (sweepRun cfg draws w0).walkers (sweepRun cfg draws w0).spawned
    ∧ (∀ k, alookup (iterateFciqmc cfg draws w0).walkers k
        = combine (alookup (sweepRun cfg draws w0).walkers k)
            (alookup (sweepRun cfg draws w0).spawned k))
    ∧ (iterateFciqmc cfg draws w0).en_num = (sweepRun cfg draws w0).en_num
    ∧ (iterateFciqmc cfg draws w0).en_denom = (sweepRun cfg draws w0).en_denom
    ∧ (iterateFciqmc cfg draws w0).ref_weight = (sweepRun cfg draws w0).ref_weight
    ∧ (iterateFciqmc cfg draws w0).nw = (sweepRun cfg draws w0).nw
    ∧ (iterateFciqmc cfg draws w0).nocc = (sweepRun cfg draws w0).nocc := by
  refine ⟨rfl, ?_, rfl, rfl, rfl, rfl, rfl⟩
  intro k
  exact annihilate_lookup _ k (sweepRun_spawned_nodup cfg draws w0)

/-- C5.  Every walker that survives the rounding step with working
amplitude `a'` performs exactly `ceil(|a'|)` spawn attempts; attempt `k`
targets the accepted draw `dr.target k` (distinct from the source) with
weight `-timestep*H[source,target]*a'/(p_spawn*nspawn)`, accumulated
into the separate spawn buffer; the main walker map receives only the
death update (independent of the spawn targets); and the target
rejection loop draws uniformly from the `ndet - 1` indices distinct
from the source, matching `p_spawn = 1/(ndet-1)`. -/
theorem C5_spawning (cfg : FciCfg) (dr : WalkerDraws) (e : Nat × ℚ)
    (s : IterState) (a' : ℚ) (hsurv : survivedAmp cfg dr e.2 = some a')
    (hd : e.1 < cfg.ndet) (htgt : ∀ k, dr.target k ≠ e.1) :
    (spawnPairs cfg dr e.1 a').length = ⌈|a'|⌉₊
    ∧ spawnPairs cfg dr e.1 a'
        = (List.range ⌈|a'|⌉₊).map (fun k =>
            (dr.target k,
              -cfg.timestep * cfg.h e.1 (dr.target k) * a' /
                (pSpawn cfg * ((⌈|a'|⌉₊ : Nat) : ℚ))))
    ∧ (∀ p ∈ spawnPairs cfg dr e.1 a', p.1 ≠ e.1)
    ∧ (processEntry cfg dr e s).spawned
        = (spawnPairs cfg dr e.1 a').foldl (fun b p => aadd b p.1 p.2) s.spawned
    ∧ (processEntry cfg dr e s).walkers
        = amodify s.walkers e.1
            (fun w => w - cfg.timestep * (cfg.h e.1 e.1 - cfg.h 0 0 - cfg.shift) * a')
    ∧ ((Finset.range cfg.ndet).erase e.1).card = cfg.ndet - 1
    ∧ pSpawn cfg = 1 / ((cfg.ndet : ℚ) - 1) := by
  refine ⟨?_, rfl, ?_, ?_, ?_, ?_, rfl⟩
  · simp [spawnPairs]
  · intro p hp
    rw [spawnPairs, List.mem_map] at hp
    obtain ⟨k, _, hk⟩ := hp
    rw [← hk]
    exact htgt k
  · rw [processEntry_of_survived cfg dr e s a' hsurv, processSurvivor_spawned,
      accumStats_spawned]
  · rw [processEntry_of_survived cfg dr e s a' hsurv, processSurvivor_walkers,
      accumStats_walkers]
  · rw [Finset.card_erase_of_mem (Finset.mem_range.mpr hd), Finset.card_range]

/-- C5 witness: a surviving above-threshold walker at a concrete
configuration. -/
theorem C5_witness :
    (spawnPairs cfgRound drRound 1 1).length = ⌈|(1 : ℚ)|⌉₊
    ∧ spawnPairs cfgRound drRound 1 1
        = (List.range ⌈|(1 : ℚ)|⌉₊).map (fun k =>
            (drRound.target k,
              -cfgRound.timestep * cfgRound.h 1 (drRound.target k) * 1 /
                (pSpawn cfgRound * ((⌈|(1 : ℚ)|⌉₊ : Nat) : ℚ))))
    ∧ (∀ p ∈ spawnPairs cfgRound drRound 1 1, p.1 ≠ 1)
    ∧ (processEntry cfgRound drRound (1, 1) (initState [(1, 1)])).spawned
        = (spawnPairs cfgRound drRound 1 1).foldl
            (fun b p => aadd b p.1 p.2) (initState [(1, 1)]).spawned
    ∧ (processEntry cfgRound drRound (1, 1) (initState [(1, 1)])).walkers
        = amodify (initState [(1, 1)]).walkers 1
            (fun w => w - cfgRound.timestep *
              (cfgRound.h 1 1 - cfgRound.h 0 0 - cfgRound.shift) * 1)
    ∧ ((Finset.range cfgRound.ndet).erase 1).card = cfgRound.ndet - 1
    ∧ pSpawn cfgRound = 1 / ((cfgRound.ndet : ℚ) - 1) :=
  C5_spawning cfgRound drRound (1, 1) (initState [(1, 1)]) 1
    (by norm_num [survivedAmp, cfgRound]) (by norm_num [cfgRound])
    (fun k => by norm_num [drRound])

/-- C7 counterexample.  One full iteration started from the single
reference walker `{0: 1}` under the zero Hamiltonian ends with the
entry `(1, 0)` in the walker map: the spawn attempt deposits weight `0`
onto determinant 1 and annihilation inserts it, so the population map
does contain an entry whose weight is exactly zero at the end of the
iteration. -/
theorem C7_counterexample :
    alookup (iterateFciqmc cfgZero drZero [(0, 1)]).walkers 1 = some 0 := by
  norm_num [iterateFciqmc, sweepRun, sweepAux, processEntry, accumStats,
    processSurvivor, survivedAmp, initState, annihilate, aadd, amodify,
    alookup, adel, cfgZero, drZero, pSpawn]

/-- C7 amended.  A zero-weight entry can survive to the end of the
iteration that created it (see the counterexample); it is instead
removed by the stochastic rounding of the next sweep that processes it:
a walker whose amplitude is exactly zero always fails the survival test
(`u < 0` is impossible for a rounding draw `u ≥ 0`), so its entry is
deleted and it contributes nothing to the walker statistics, spawning,
or death of that iteration. -/
theorem C7_amended (cfg : FciCfg) (dr : WalkerDraws) (e : Nat × ℚ)
    (s : IterState) (hzero : e.2 = 0) (hu : 0 ≤ dr.u) :
    (processEntry cfg dr e s).walkers = adel s.walkers e.1
    ∧ (processEntry cfg dr e s).spawned = s.spawned
    ∧ (processEntry cfg dr e s).nw = s.nw
    ∧ (processEntry cfg dr e s).nocc = s.nocc := by
  have hdel : survivedAmp cfg dr e.2 = none := by
    rw [hzero]
    unfold survivedAmp
    rw [abs_zero, zero_div]
    rw [if_pos (by norm_num), if_neg (not_lt.mpr hu)]
  rw [processEntry_of_deleted cfg dr e s hdel]
  exact ⟨by rw [accumStats_walkers], by rw [accumStats_spawned],
    by rw [accumStats_nw], by rw [accumStats_nocc]⟩

/-- C7 amended witness: a zero-weight walker at determinant 1 is
deleted by the rounding step. -/
theorem C7_amended_witness :
    (processEntry cfgZero (drZero 0) (1, 0) (initState [(1, 0)])).walkers
        = adel (initState [(1, 0)]).walkers 1
    ∧ (processEntry cfgZero (drZero 0) (1, 0) (initState [(1, 0)])).spawned
        = (initState [(1, 0)]).spawned
    ∧ (processEntry cfgZero (drZero 0) (1, 0) (initState [(1, 0)])).nw
        = (initState [(1, 0)]).nw
    ∧ (processEntry cfgZero (drZero 0) (1, 0) (initState [(1, 0)])).nocc
        = (initState [(1, 0)]).nocc :=
  C7_amended cfgZero (drZero 0) (1, 0) (initState [(1, 0)]) rfl
    (by norm_num [drZero])

/-- C1.  Evaluation of the stochastic-rounding block at the failing
input: a walker at determinant 1 with amplitude `-1/10`, threshold
`1/4`, rounding draw `1/10 < chi = 2/5`.  The code keeps the walker but
(i) its working amplitude becomes the *positive* `det_thresh = 1/4`
(the walker count accumulates `|+1/4|`), not `sign(w)*det_thresh =
-1/4`, and (ii) the population-map entry is never promoted: with zero
time step it still holds `-1/10` after processing, and with unit time
step and `H[1,1] - H[0,0] = 1` it holds `-1/10 - 1*(1)*(1/4) = -7/20`
(the death step subtracting the *positive* promoted amplitude from the
*unpromoted* stored weight), while the claim demands `-1/4`. -/
theorem C1_rounding_eval :
    survivedAmp cfgRound drRound (-1/10) = some (1/4)
    ∧ (processEntry cfgRound drRound (1, -1/10) (initState [(1, -1/10)])).nw = 1/4
    ∧ alookup (processEntry cfgRound drRound (1, -1/10)
        (initState [(1, -1/10)])).walkers 1 = some (-7/20)
    ∧ alookup (processEntry cfgRound0 drRound (1, -1/10)
        (initState [(1, -1/10)])).walkers 1 = some (-1/10)
    ∧ ((-7 : ℚ)/20 ≠ -1/4 ∧ (-1 : ℚ)/10 ≠ -1/4) := by
  have habs : |(-1 / 10 : ℚ)| = 1 / 10 := by
    rw [abs_of_nonpos (by norm_num)]
    norm_num
  have hs1 : survivedAmp cfgRound drRound (-1 / 10) = some (1 / 4) := by
    unfold survivedAmp
    simp only [cfgRound, drRound]
    rw [habs]
    norm_num
  have hs0 : survivedAmp cfgRound0 drRound (-1 / 10) = some (1 / 4) := by
    unfold survivedAmp
    simp only [cfgRound0, drRound]
    rw [habs]
    norm_num
  refine ⟨hs1, ?_, ?_, ?_, by norm_num⟩
  · rw [processEntry_of_survived cfgRound drRound (1, -1/10)
      (initState [(1, -1/10)]) (1/4) hs1]
    simp [processSurvivor, accumStats, initState]
  · rw [processEntry_of_survived cfgRound drRound (1, -1/10)
      (initState [(1, -1/10)]) (1/4) hs1, processSurvivor_walkers,
      accumStats_walkers]
    simp [initState, amodify, alookup, cfgRound]
    norm_num
  · rw [processEntry_of_survived cfgRound0 drRound (1, -1/10)
      (initState [(1, -1/10)]) (1/4) hs0, processSurvivor_walkers,
      accumStats_walkers]
    simp [initState, amodify, alookup, cfgRound0]

/-! ## Claim C3: generation probabilities of `HAM.excit_gen` -/

lemma toFinset_set {l : List Nat} (t : Nat) :
    ∀ {i : Nat}, l.Nodup → i < l.length → t ∉ l →
      (l.set i t).toFinset = insert t (l.toFinset.erase (l.getD i 0)) := by
  induction l with
  | nil => intro i _ hi _; exact absurd hi (by simp)
  | cons x xs ih =>
    intro i hnd hi ht
    rw [List.nodup_cons] at hnd
    have htx : t ≠ x := fun hc => ht (hc ▸ List.mem_cons_self x xs)
    have hts : t ∉ xs := fun hc => ht (List.mem_cons_of_mem x hc)
    cases i with
    | zero =>
      rw [List.set_cons_zero, List.getD_cons_zero, List.toFinset_cons,
        List.toFinset_cons,
        Finset.erase_insert (fun hc => hnd.1 (List.mem_toFinset.mp hc))]
    | succ j =>
      have hj : j < xs.length := Nat.succ_lt_succ_iff.mp hi
      have hb : xs.getD j 0 ∈ xs := by
        rw [List.getD_eq_getElem xs 0 hj]
        exact List.getElem_mem hj
      have hxb : x ≠ xs.getD j 0 := fun hc => hnd.1 (hc ▸ hb)
      rw [List.set_cons_succ, List.getD_cons_succ, List.toFinset_cons,
        List.toFinset_cons, ih hnd.2 hj hts,
        Finset.erase_insert_of_ne hxb, Finset.Insert.comm]

lemma pySorted_toFinset (l : List Nat) : (pySorted l).toFinset = l.toFinset :=
  List.toFinset_eq_of_perm _ _ (pySorted_perm l)

lemma singleExcite_toFinset {det : List Nat} {ind t : Nat} (hnd : det.Nodup)
    (hi : ind < det.length) (ht : t ∉ det) :
    (singleExcite det ind t).toFinset
      = insert t (det.toFinset.erase (det.getD ind 0)) := by
  rw [singleExcite, pySorted_toFinset, toFinset_set t hnd hi ht]

lemma eq_of_sorted_of_toFinset_eq {l₁ l₂ : List Nat}
    (h₁ : l₁.Sorted (· < ·)) (h₂ : l₂.Sorted (· < ·))
    (hf : l₁.toFinset = l₂.toFinset) : l₁ = l₂ := by
  have hp : List.Perm l₁ l₂ :=
    List.perm_of_nodup_nodup_toFinset_eq h₁.nodup h₂.nodup hf
  exact List.eq_of_perm_of_sorted hp
    (h₁.imp (fun h => le_of_lt h)) (h₂.imp (fun h => le_of_lt h))

lemma getD_mem_of_lt {l : List Nat} {i : Nat} (h : i < l.length) :
    l.getD i 0 ∈ l := by
  rw [List.getD_eq_getElem l 0 h]
  exact List.getElem_mem h

lemma getD_inj_of_nodup {l : List Nat} (hnd : l.Nodup) {i j : Nat}
    (hi : i < l.length) (hj : j < l.length)
    (h : l.getD i 0 = l.getD j 0) : i = j := by
  rw [List.getD_eq_getElem l 0 hi, List.getD_eq_getElem l 0 hj] at h
  exact (hnd.getElem_inj_iff).mp h

lemma virt_not_mem {H : HAM} {det : List Nat} {t : Nat}
    (ht : t ∈ virt H det) : t ∉ det := by
  rw [virt, Finset.mem_sdiff] at ht
  exact fun hc => ht.2 (List.mem_toFinset.mpr hc)

lemma virt_not_mem_toFinset {H : HAM} {det : List Nat} {t : Nat}
    (ht : t ∈ virt H det) : t ∉ det.toFinset := by
  rw [virt, Finset.mem_sdiff] at ht
  exact ht.2

lemma virt_lt {H : HAM} {det : List Nat} {t : Nat} (ht : t ∈ virt H det) :
    t < 2 * H.nbasis := by
  rw [virt, Finset.mem_sdiff, Finset.mem_range] at ht
  exact ht.1

lemma virt_card {H : HAM} {det : List Nat} (hnd : det.Nodup)
    (hsub : ∀ x ∈ det, x < 2 * H.nbasis) :
    (virt H det).card = 2 * H.nbasis - det.length := by
  rw [virt, Finset.card_sdiff, Finset.card_range,
    List.toFinset_card_of_nodup hnd]
  intro x hx
  rw [Finset.mem_range]
  exact hsub x (List.mem_toFinset.mp hx)

lemma insert_erase_inj {occ : Finset Nat} {f₁ f₂ t₁ t₂ : Nat}
    (hf₁ : f₁ ∈ occ) (ht₁ : t₁ ∉ occ) (ht₂ : t₂ ∉ occ)
    (h : insert t₁ (occ.erase f₁) = insert t₂ (occ.erase f₂)) :
    t₁ = t₂ ∧ f₁ = f₂ := by
  have htt : t₁ = t₂ := by
    have h1 : t₁ ∈ insert t₂ (occ.erase f₂) := h ▸ Finset.mem_insert_self t₁ _
    rcases Finset.mem_insert.mp h1 with h2 | h2
    · exact h2
    · exact absurd (Finset.mem_of_mem_erase h2) ht₁
  subst htt
  refine ⟨rfl, ?_⟩
  have he : occ.erase f₁ = occ.erase f₂ := by
    have h1 : t₁ ∉ occ.erase f₁ := fun hc => ht₁ (Finset.mem_of_mem_erase hc)
    have h2 : t₁ ∉ occ.erase f₂ := fun hc => ht₁ (Finset.mem_of_mem_erase hc)
    rw [← Finset.erase_insert h1, ← Finset.erase_insert h2, h]
  by_contra hne
  have hmem : f₁ ∈ occ.erase f₂ := Finset.mem_erase.mpr ⟨hne, hf₁⟩
  rw [← he] at hmem
  exact (Finset.mem_erase.mp hmem).1 rfl

lemma singleExcite_injOn (H : HAM) (det : List Nat) (hnd : det.Nodup) :
    Set.InjOn (fun p : Nat × Nat => singleExcite det p.1 p.2)
      (((Finset.range det.length) ×ˢ virt H det : Finset (Nat × Nat)) : Set (Nat × Nat)) := by
  intro p hp q hq heq
  rw [Finset.mem_coe, Finset.mem_product, Finset.mem_range] at hp hq
  have hfp : (singleExcite det p.1 p.2).toFinset
      = insert p.2 (det.toFinset.erase (det.getD p.1 0)) :=
    singleExcite_toFinset hnd hp.1 (virt_not_mem hp.2)
  have hfq : (singleExcite det q.1 q.2).toFinset
      = insert q.2 (det.toFinset.erase (det.getD q.1 0)) :=
    singleExcite_toFinset hnd hq.1 (virt_not_mem hq.2)
  have hins := hfp.symm.trans ((congrArg List.toFinset heq).trans hfq)
  obtain ⟨ht, hf⟩ := insert_erase_inj
    (List.mem_toFinset.mpr (getD_mem_of_lt hp.1))
    (virt_not_mem_toFinset hp.2) (virt_not_mem_toFinset hq.2) hins
  have hi : p.1 = q.1 := getD_inj_of_nodup hnd hp.1 hq.1 hf
  exact Prod.ext hi ht

lemma singles_card (H : HAM) (det : List Nat) (hnd : det.Nodup) :
    (singlesOf H det).card = det.length * (virt H det).card := by
  rw [singlesOf, Finset.card_image_of_injOn (singleExcite_injOn H det hnd),
    Finset.card_product, Finset.card_range]

lemma sum_ite_const {α : Type} (s : Finset α) (p : α → Prop) [DecidablePred p]
    (c : ℚ) :
    (∑ x ∈ s, if p x then c else 0) = ((s.filter p).card : ℚ) * c := by
  rw [← Finset.sum_filter, Finset.sum_const, nsmul_eq_mul]

lemma cast_nm (H : HAM) (det : List Nat) (hnd : det.Nodup)
    (hlen : det.length = H.nelec) (hsub : ∀ x ∈ det, x < 2 * H.nbasis)
    (hm : det.length + 2 ≤ 2 * H.nbasis) :
    ((det.length : ℚ) * ((virt H det).card : ℚ))
      = (H.nelec : ℚ) * (2 * (H.nbasis : ℚ) - (H.nelec : ℚ)) := by
  have hle : det.length ≤ 2 * H.nbasis := by omega
  rw [virt_card hnd hsub, Nat.cast_sub hle, ← hlen]
  push_cast
  ring

lemma nm_pos (H : HAM) (det : List Nat) (hlen : det.length = H.nelec)
    (hn : 2 ≤ det.length) (hm : det.length + 2 ≤ 2 * H.nbasis) :
    (0 : ℚ) < (H.nelec : ℚ) * (2 * (H.nbasis : ℚ) - (H.nelec : ℚ)) := by
  have h1 : (0 : ℚ) < (H.nelec : ℚ) := by
    exact_mod_cast (by omega : 0 < H.nelec)
  have h2 : (0 : ℚ) < 2 * (H.nbasis : ℚ) - (H.nelec : ℚ) := by
    have hc : (H.nelec : ℚ) + 2 ≤ 2 * (H.nbasis : ℚ) := by
      exact_mod_cast (by omega : H.nelec + 2 ≤ 2 * H.nbasis)
    linarith
  exact mul_pos h1 h2

lemma singles_sum (H : HAM) (det : List Nat) (hnd : det.Nodup)
    (hlen : det.length = H.nelec) (hsub : ∀ x ∈ det, x < 2 * H.nbasis)
    (hn : 2 ≤ det.length) (hm : det.length + 2 ≤ 2 * H.nbasis) :
    ∑ D ∈ singlesOf H det, reportedProbSingle H = H.p_single := by
  rw [Finset.sum_const, singles_card H det hnd, nsmul_eq_mul, Nat.cast_mul,
    cast_nm H det hnd hlen hsub hm, reportedProbSingle, mul_comm,
    div_mul_cancel₀ _ (ne_of_gt (nm_pos H det hlen hn hm))]

lemma singles_trueprob (H : HAM) (det : List Nat) (hs : det.Sorted (· < ·))
    (hlen : det.length = H.nelec) (hsub : ∀ x ∈ det, x < 2 * H.nbasis)
    (hm : det.length + 2 ≤ 2 * H.nbasis)
    (D : List Nat) (hD : D ∈ singlesOf H det) :
    trueProbSingle H det D = reportedProbSingle H := by
  obtain ⟨p₀, hp₀, hfp₀⟩ := Finset.mem_image.mp hD
  have hfil : ((Finset.range det.length) ×ˢ virt H det).filter
      (fun p => singleExcite det p.1 p.2 = D) = {p₀} := by
    apply Finset.eq_singleton_iff_unique_mem.mpr
    refine ⟨Finset.mem_filter.mpr ⟨hp₀, hfp₀⟩, ?_⟩
    intro q hq
    obtain ⟨hq1, hq2⟩ := Finset.mem_filter.mp hq
    exact singleExcite_injOn H det hs.nodup (Finset.mem_coe.mpr hq1)
      (Finset.mem_coe.mpr hp₀) (hq2.trans hfp₀.symm)
  rw [trueProbSingle, sum_ite_const, hfil, Finset.card_singleton, Nat.cast_one,
    one_mul, mul_one_div, cast_nm H det hs.nodup hlen hsub hm,
    reportedProbSingle]

lemma dd_shape {occ : Finset Nat} {f f2 t t2 : Nat} (hf : f ∈ occ)
    (hf2 : f2 ∈ occ.erase f) (ht : t ∉ occ) (ht2 : t2 ∉ occ) (htt : t2 ≠ t) :
    insert t2 ((insert t (occ.erase f)).erase f2)
      = (occ \ {f, f2}) ∪ {t, t2} := by
  have hf2occ : f2 ∈ occ := Finset.mem_of_mem_erase hf2
  have hf2f : f2 ≠ f := (Finset.mem_erase.mp hf2).1
  have htf2 : f2 ≠ t := fun hc => ht (hc ▸ hf2occ)
  ext x
  simp only [Finset.mem_insert, Finset.mem_erase, Finset.mem_sdiff,
    Finset.mem_union, Finset.mem_singleton]
  constructor
  · rintro (rfl | ⟨hxf2, rfl | ⟨hxf, hxocc⟩⟩)
    · exact Or.inr (Or.inr rfl)
    · exact Or.inr (Or.inl rfl)
    · exact Or.inl ⟨hxocc, by tauto⟩
  · rintro (⟨hxocc, hxne⟩ | rfl | rfl)
    · push_neg at hxne
      exact Or.inr ⟨hxne.2, Or.inr ⟨hxne.1, hxocc⟩⟩
    · exact Or.inr ⟨fun hc => htf2 hc.symm, Or.inl rfl⟩
    · exact Or.inl rfl

lemma pair_recover {occ A B A2 B2 : Finset Nat} (hA : A ⊆ occ) (hA2 : A2 ⊆ occ)
    (hB : Disjoint B occ) (hB2 : Disjoint B2 occ)
    (h : (occ \ A) ∪ B = (occ \ A2) ∪ B2) : A = A2 ∧ B = B2 := by
  have key : ∀ {X : Finset Nat} (Y : Finset Nat), Disjoint Y occ →
      ((occ \ X) ∪ Y) ∩ occ = occ \ X := by
    intro X Y hY
    rw [Finset.union_inter_distrib_right,
      Finset.inter_eq_left.mpr Finset.sdiff_subset,
      Finset.disjoint_iff_inter_eq_empty.mp hY, Finset.union_empty]
  have key2 : ∀ {X : Finset Nat} (Y : Finset Nat), Disjoint Y occ →
      ((occ \ X) ∪ Y) \ occ = Y := by
    intro X Y hY
    rw [Finset.union_sdiff_distrib,
      Finset.sdiff_eq_empty_iff_subset.mpr Finset.sdiff_subset,
      Finset.sdiff_eq_self_iff_disjoint.mpr hY, Finset.empty_union]
  constructor
  · have h1 : occ \ A = occ \ A2 :=
      (key B hB).symm.trans ((congrArg (· ∩ occ) h).trans (key B2 hB2))
    rw [← Finset.sdiff_sdiff_eq_self hA, ← Finset.sdiff_sdiff_eq_self hA2, h1]
  · exact (key2 B hB).symm.trans ((congrArg (· \ occ) h).trans (key2 B2 hB2))

lemma singleExcite_mem_t {H : HAM} {det : List Nat} {ind t : Nat}
    (hnd : det.Nodup) (hi : ind < det.length) (ht : t ∈ virt H det) :
    t ∈ singleExcite det ind t := by
  rw [← List.mem_toFinset, singleExcite_toFinset hnd hi (virt_not_mem ht)]
  exact Finset.mem_insert_self t _

lemma accept2_fst_eq (H : HAM) (det : List Nat) {ind t : Nat}
    (hs : det.Sorted (· < ·)) (hi : ind < det.length) (ht : t ∈ virt H det) :
    (Finset.range det.length).filter
        (fun i2 => (singleExcite det ind t).getD i2 0 ≠ t)
      = (Finset.range det.length).erase ((singleExcite det ind t).indexOf t) := by
  obtain ⟨hE1s, hE1len, hE1nd⟩ := singleExcite_props ind t hs.nodup (virt_not_mem ht)
  have htE1 : t ∈ singleExcite det ind t := singleExcite_mem_t hs.nodup hi ht
  have hidx : (singleExcite det ind t).indexOf t < (singleExcite det ind t).length :=
    List.indexOf_lt_length.mpr htE1
  ext i
  simp only [Finset.mem_filter, Finset.mem_erase, Finset.mem_range]
  constructor
  · rintro ⟨hlt, hne⟩
    refine ⟨?_, hlt⟩
    intro hc
    apply hne
    rw [hc, List.getD_eq_getElem _ 0 (hE1len ▸ hidx), List.getElem_indexOf hidx]
  · rintro ⟨hne, hlt⟩
    refine ⟨hlt, ?_⟩
    intro hc
    apply hne
    have hlt2 : i < (singleExcite det ind t).length := hE1len ▸ hlt
    rw [List.getD_eq_getElem _ 0 hlt2] at hc
    have hidxi := List.indexOf_getElem hE1nd i hlt2
    rw [hc] at hidxi
    exact hidxi.symm

lemma accept2_snd_eq (H : HAM) (det : List Nat) {ind t : Nat}
    (hs : det.Sorted (· < ·)) (hi : ind < det.length) (ht : t ∈ virt H det) :
    (Finset.range (2 * H.nbasis)).filter
        (fun t2 => t2 ∉ singleExcite det ind t ∧ t2 ≠ det.getD ind 0)
      = (virt H det).erase t := by
  have hfocc : det.getD ind 0 ∈ det.toFinset :=
    List.mem_toFinset.mpr (getD_mem_of_lt hi)
  ext t2
  simp only [Finset.mem_filter, Finset.mem_range, Finset.mem_erase, virt,
    Finset.mem_sdiff, ← List.mem_toFinset,
    singleExcite_toFinset hs.nodup hi (virt_not_mem ht), Finset.mem_insert,
    Finset.mem_erase]
  constructor
  · rintro ⟨hlt, hnmem, hnef⟩
    push_neg at hnmem
    exact ⟨hnmem.1, hlt, fun hocc => (hnmem.2 hnef) hocc⟩
  · rintro ⟨hnet, hlt, hnocc⟩
    refine ⟨hlt, ?_, fun hc => hnocc (hc ▸ hfocc)⟩
    push_neg
    exact ⟨hnet, fun _ => hnocc⟩

lemma accept2_eq (H : HAM) (det : List Nat) {ind t : Nat}
    (hs : det.Sorted (· < ·)) (hi : ind < det.length) (ht : t ∈ virt H det) :
    accept2 H det ind t
      = ((Finset.range det.length).erase ((singleExcite det ind t).indexOf t))
          ×ˢ ((virt H det).erase t) := by
  rw [accept2, accept2_fst_eq H det hs hi ht, accept2_snd_eq H det hs hi ht]

lemma accept2_card (H : HAM) (det : List Nat) {ind t : Nat}
    (hs : det.Sorted (· < ·)) (hi : ind < det.length) (ht : t ∈ virt H det) :
    (accept2 H det ind t).card = (det.length - 1) * ((virt H det).card - 1) := by
  obtain ⟨hE1s, hE1len, hE1nd⟩ := singleExcite_props ind t hs.nodup (virt_not_mem ht)
  have htE1 : t ∈ singleExcite det ind t := singleExcite_mem_t hs.nodup hi ht
  have hidx : (singleExcite det ind t).indexOf t < det.length :=
    hE1len ▸ List.indexOf_lt_length.mpr htE1
  rw [accept2_eq H det hs hi ht, Finset.card_product,
    Finset.card_erase_of_mem (Finset.mem_range.mpr hidx), Finset.card_range,
    Finset.card_erase_of_mem ht]

lemma accept2_facts (H : HAM) (det : List Nat) (hs : det.Sorted (· < ·))
    {ind t i2 t2 : Nat} (hi : ind < det.length) (ht : t ∈ virt H det)
    (hq : (i2, t2) ∈ accept2 H det ind t) :
    i2 < det.length
    ∧ (singleExcite det ind t).getD i2 0 ∈ det.toFinset.erase (det.getD ind 0)
    ∧ i2 = (singleExcite det ind t).indexOf ((singleExcite det ind t).getD i2 0)
    ∧ t2 ∈ (virt H det).erase t ∧ t2 ∉ singleExcite det ind t := by
  obtain ⟨hE1s, hE1len, hE1nd⟩ :=
    singleExcite_props ind t hs.nodup (virt_not_mem ht)
  rw [accept2, Finset.mem_product] at hq
  obtain ⟨hq1, hq2⟩ := hq
  rw [Finset.mem_filter, Finset.mem_range] at hq1 hq2
  obtain ⟨hi2, hne⟩ := hq1
  obtain ⟨hlt2, hnmem, hnef⟩ := hq2
  have hi2len : i2 < (singleExcite det ind t).length := hE1len ▸ hi2
  have hf2mem : (singleExcite det ind t).getD i2 0 ∈ singleExcite det ind t :=
    getD_mem_of_lt hi2len
  have hf2S1 : (singleExcite det ind t).getD i2 0
      ∈ insert t (det.toFinset.erase (det.getD ind 0)) := by
    rw [← singleExcite_toFinset hs.nodup hi (virt_not_mem ht)]
    exact List.mem_toFinset.mpr hf2mem
  have hf2 : (singleExcite det ind t).getD i2 0
      ∈ det.toFinset.erase (det.getD ind 0) := by
    rcases Finset.mem_insert.mp hf2S1 with hc | hc
    · exact absurd hc hne
    · exact hc
  have hidx : i2 = (singleExcite det ind t).indexOf
      ((singleExcite det ind t).getD i2 0) := by
    rw [List.getD_eq_getElem _ 0 hi2len]
    exact (List.indexOf_getElem hE1nd i2 hi2len).symm
  have ht2nS1 : t2 ∉ insert t (det.toFinset.erase (det.getD ind 0)) := by
    rw [← singleExcite_toFinset hs.nodup hi (virt_not_mem ht)]
    exact fun hc => hnmem (List.mem_toFinset.mp hc)
  have ht2t : t2 ≠ t := by
    intro hc
    apply ht2nS1
    rw [hc]
    exact Finset.mem_insert_self t _
  have ht2occ : t2 ∉ det.toFinset := by
    intro hc
    apply ht2nS1
    apply Finset.mem_insert_of_mem
    exact Finset.mem_erase.mpr ⟨hnef, hc⟩
  have ht2virt : t2 ∈ virt H det := by
    rw [virt, Finset.mem_sdiff]
    exact ⟨Finset.mem_range.mpr hlt2, ht2occ⟩
  exact ⟨hi2, hf2, hidx, Finset.mem_erase.mpr ⟨ht2t, ht2virt⟩, hnmem⟩

lemma doubleExcite_sorted (H : HAM) (det : List Nat) (hs : det.Sorted (· < ·))
    {ind t i2 t2 : Nat} (hi : ind < det.length) (ht : t ∈ virt H det)
    (hq : (i2, t2) ∈ accept2 H det ind t) :
    (doubleExcite det ind t i2 t2).Sorted (· < ·)
    ∧ (doubleExcite det ind t i2 t2).length = det.length
    ∧ (doubleExcite det ind t i2 t2).Nodup := by
  obtain ⟨hE1s, hE1len, hE1nd⟩ :=
    singleExcite_props ind t hs.nodup (virt_not_mem ht)
  obtain ⟨_, _, _, _, hnmem⟩ := accept2_facts H det hs hi ht hq
  obtain ⟨h1, h2, h3⟩ := singleExcite_props i2 t2 hE1nd hnmem
  exact ⟨h1, by rw [doubleExcite, ← singleExcite, h2, hE1len], h3⟩

lemma doubleExcite_toFinset (H : HAM) (det : List Nat)
    (hs : det.Sorted (· < ·)) {ind t i2 t2 : Nat} (hi : ind < det.length)
    (ht : t ∈ virt H det) (hq : (i2, t2) ∈ accept2 H det ind t) :
    (doubleExcite det ind t i2 t2).toFinset
      = (det.toFinset \ {det.getD ind 0, (singleExcite det ind t).getD i2 0})
          ∪ {t, t2} := by
  obtain ⟨hE1s, hE1len, hE1nd⟩ :=
    singleExcite_props ind t hs.nodup (virt_not_mem ht)
  obtain ⟨hi2, hf2, _, ht2, hnmem⟩ := accept2_facts H det hs hi ht hq
  have hi2len : i2 < (singleExcite det ind t).length := hE1len ▸ hi2
  rw [doubleExcite, pySorted_toFinset,
    toFinset_set t2 hE1nd hi2len hnmem,
    singleExcite_toFinset hs.nodup hi (virt_not_mem ht)]
  exact dd_shape (List.mem_toFinset.mpr (getD_mem_of_lt hi)) hf2
    (virt_not_mem_toFinset ht)
    (virt_not_mem_toFinset (Finset.mem_of_mem_erase ht2))
    (Finset.mem_erase.mp ht2).1

lemma build_path (H : HAM) (det : List Nat) (hs : det.Sorted (· < ·))
    {f2 t1 t2 ind : Nat}
    (hi : ind < det.length)
    (hf2 : f2 ∈ det.toFinset.erase (det.getD ind 0))
    (ht1 : t1 ∈ virt H det) (ht2 : t2 ∈ (virt H det).erase t1) :
    ((singleExcite det ind t1).indexOf f2, t2) ∈ accept2 H det ind t1
    ∧ (singleExcite det ind t1).getD ((singleExcite det ind t1).indexOf f2) 0
        = f2 := by
  obtain ⟨hE1s, hE1len, hE1nd⟩ :=
    singleExcite_props ind t1 hs.nodup (virt_not_mem ht1)
  have hf2occ : f2 ∈ det.toFinset := Finset.mem_of_mem_erase hf2
  have ht2virt : t2 ∈ virt H det := Finset.mem_of_mem_erase ht2
  have ht2t1 : t2 ≠ t1 := (Finset.mem_erase.mp ht2).1
  have hf2E1 : f2 ∈ singleExcite det ind t1 := by
    rw [← List.mem_toFinset,
      singleExcite_toFinset hs.nodup hi (virt_not_mem ht1)]
    exact Finset.mem_insert_of_mem hf2
  have hidxlen : (singleExcite det ind t1).indexOf f2
      < (singleExcite det ind t1).length := List.indexOf_lt_length.mpr hf2E1
  have hgetd : (singleExcite det ind t1).getD
      ((singleExcite det ind t1).indexOf f2) 0 = f2 := by
    rw [List.getD_eq_getElem _ 0 hidxlen]
    exact List.getElem_indexOf hidxlen
  have hf2nett : f2 ≠ t1 := by
    intro hc
    exact virt_not_mem_toFinset ht1 (hc ▸ hf2occ)
  have ht2nE1 : t2 ∉ singleExcite det ind t1 := by
    rw [← List.mem_toFinset,
      singleExcite_toFinset hs.nodup hi (virt_not_mem ht1)]
    intro hc
    rcases Finset.mem_insert.mp hc with hc1 | hc1
    · exact ht2t1 hc1
    · exact virt_not_mem_toFinset ht2virt (Finset.mem_of_mem_erase hc1)
  have ht2nef : t2 ≠ det.getD ind 0 := by
    intro hc
    exact virt_not_mem_toFinset ht2virt
      (hc ▸ List.mem_toFinset.mpr (getD_mem_of_lt hi))
  refine ⟨?_, hgetd⟩
  rw [accept2, Finset.mem_product]
  constructor
  · rw [Finset.mem_filter, Finset.mem_range]
    exact ⟨hE1len ▸ hidxlen, by rw [hgetd]; exact hf2nett⟩
  · rw [Finset.mem_filter, Finset.mem_range]
    exact ⟨virt_lt ht2virt, ht2nE1, ht2nef⟩

lemma doubles_eq_pairs (H : HAM) (det : List Nat) (hs : det.Sorted (· < ·)) :
    doublesOf H det = doublesPairs H det := by
  ext D
  constructor
  · intro hD
    obtain ⟨p, hp, hDim⟩ := Finset.mem_biUnion.mp hD
    obtain ⟨q, hq, hDq⟩ := Finset.mem_image.mp hDim
    obtain ⟨hp1, hp2⟩ := Finset.mem_product.mp hp
    rw [Finset.mem_range] at hp1
    obtain ⟨hi2, hf2, hidx, ht2, hnm⟩ := accept2_facts H det hs hp1 hp2 hq
    obtain ⟨hDs, hDlen, hDnd⟩ := doubleExcite_sorted H det hs hp1 hp2 hq
    apply Finset.mem_image.mpr
    refine ⟨({det.getD p.1 0, (singleExcite det p.1 p.2).getD q.1 0}, {p.2, q.2}),
      ?_, ?_⟩
    · apply Finset.mem_product.mpr
      constructor
      · apply Finset.mem_powersetCard.mpr
        refine ⟨?_, Finset.card_pair
          (fun hc => (Finset.mem_erase.mp hf2).1 hc.symm)⟩
        apply Finset.insert_subset_iff.mpr
        exact ⟨List.mem_toFinset.mpr (getD_mem_of_lt hp1),
          Finset.singleton_subset_iff.mpr (Finset.mem_of_mem_erase hf2)⟩
      · apply Finset.mem_powersetCard.mpr
        refine ⟨?_, Finset.card_pair
          (fun hc => (Finset.mem_erase.mp ht2).1 hc.symm)⟩
        apply Finset.insert_subset_iff.mpr
        exact ⟨hp2, Finset.singleton_subset_iff.mpr (Finset.mem_of_mem_erase ht2)⟩
    · rw [← hDq]
      apply eq_of_sorted_of_toFinset_eq (Finset.sort_sorted_lt _) hDs
      rw [Finset.sort_toFinset, doubleExcite_toFinset H det hs hp1 hp2 hq]
  · intro hD
    obtain ⟨PQ, hPQ, hsort⟩ := Finset.mem_image.mp hD
    obtain ⟨hP, hQ⟩ := Finset.mem_product.mp hPQ
    obtain ⟨hPsub, hPcard⟩ := Finset.mem_powersetCard.mp hP
    obtain ⟨hQsub, hQcard⟩ := Finset.mem_powersetCard.mp hQ
    obtain ⟨f1, f2, hf12, hPeq⟩ := Finset.card_eq_two.mp hPcard
    obtain ⟨t1, t2, ht12, hQeq⟩ := Finset.card_eq_two.mp hQcard
    have hf1occ : f1 ∈ det.toFinset :=
      hPsub (hPeq ▸ Finset.mem_insert_self f1 {f2})
    have hf2occ : f2 ∈ det.toFinset :=
      hPsub (hPeq ▸ Finset.mem_insert_of_mem (Finset.mem_singleton_self f2))
    have ht1v : t1 ∈ virt H det :=
      hQsub (hQeq ▸ Finset.mem_insert_self t1 {t2})
    have ht2v : t2 ∈ virt H det :=
      hQsub (hQeq ▸ Finset.mem_insert_of_mem (Finset.mem_singleton_self t2))
    have hf1det : f1 ∈ det := List.mem_toFinset.mp hf1occ
    have hi : det.indexOf f1 < det.length := List.indexOf_lt_length.mpr hf1det
    have hf1get : det.getD (det.indexOf f1) 0 = f1 := by
      rw [List.getD_eq_getElem _ 0 hi]
      exact List.getElem_indexOf hi
    have hf2e : f2 ∈ det.toFinset.erase (det.getD (det.indexOf f1) 0) := by
      rw [hf1get]
      exact Finset.mem_erase.mpr ⟨hf12.symm, hf2occ⟩
    have ht2e : t2 ∈ (virt H det).erase t1 :=
      Finset.mem_erase.mpr ⟨ht12.symm, ht2v⟩
    obtain ⟨hqmem, hgetd⟩ := build_path H det hs hi hf2e ht1v ht2e
    obtain ⟨hDs, hDlen, hDnd⟩ :=
      doubleExcite_sorted H det hs hi ht1v hqmem
    apply Finset.mem_biUnion.mpr
    refine ⟨(det.indexOf f1, t1),
      Finset.mem_product.mpr ⟨Finset.mem_range.mpr hi, ht1v⟩, ?_⟩
    apply Finset.mem_image.mpr
    refine ⟨((singleExcite det (det.indexOf f1) t1).indexOf f2, t2), hqmem, ?_⟩
    rw [← hsort, hPeq, hQeq]
    apply eq_of_sorted_of_toFinset_eq hDs (Finset.sort_sorted_lt _)
    rw [Finset.sort_toFinset,
      doubleExcite_toFinset H det hs hi ht1v hqmem, hf1get, hgetd]

lemma doubles_card (H : HAM) (det : List Nat) (hs : det.Sorted (· < ·)) :
    (doublesOf H det).card
      = (det.length.choose 2) * (((virt H det).card).choose 2) := by
  rw [doubles_eq_pairs H det hs, doublesPairs, Finset.card_image_of_injOn,
    Finset.card_product, Finset.card_powersetCard, Finset.card_powersetCard,
    List.toFinset_card_of_nodup hs.nodup]
  intro PQ h1 PQ2 h2 heq
  rw [Finset.mem_coe, Finset.mem_product] at h1 h2
  have h1P := (Finset.mem_powersetCard.mp h1.1).1
  have h2P := (Finset.mem_powersetCard.mp h2.1).1
  have h1Q := (Finset.mem_powersetCard.mp h1.2).1
  have h2Q := (Finset.mem_powersetCard.mp h2.2).1
  have hfin := congrArg List.toFinset heq
  rw [Finset.sort_toFinset, Finset.sort_toFinset] at hfin
  obtain ⟨hA, hB⟩ := pair_recover h1P h2P
    (Disjoint.mono_left h1Q Finset.sdiff_disjoint)
    (Disjoint.mono_left h2Q Finset.sdiff_disjoint) hfin
  exact Prod.ext hA hB

lemma comb2_natCast (k : Nat) :
    comb2 (k : Int) = (k : ℚ) * ((k : ℚ) - 1) / 2 := by
  rw [comb2, if_neg (not_lt.mpr (Int.natCast_nonneg k))]
  push_cast
  ring

lemma reportedProbDouble_eq (H : HAM) (hle : H.nelec ≤ 2 * H.nbasis) :
    reportedProbDouble H
      = (1 - H.p_single) /
          ((((2 * H.nbasis - H.nelec).choose 2 : ℕ) : ℚ)
            * ((H.nelec.choose 2 : ℕ) : ℚ)) := by
  rw [reportedProbDouble]
  congr 1
  have h1 : (2 * (H.nbasis : Int) - (H.nelec : Int))
      = ((2 * H.nbasis - H.nelec : ℕ) : Int) := by
    rw [Nat.cast_sub hle]
    push_cast
    ring
  rw [h1, comb2_natCast, comb2_natCast, Nat.cast_choose_two, Nat.cast_choose_two]

lemma doubles_sum (H : HAM) (det : List Nat) (hs : det.Sorted (· < ·))
    (hlen : det.length = H.nelec) (hsub : ∀ x ∈ det, x < 2 * H.nbasis)
    (hn : 2 ≤ det.length) (hm : det.length + 2 ≤ 2 * H.nbasis) :
    ∑ D ∈ doublesOf H det, reportedProbDouble H = 1 - H.p_single := by
  have hle : H.nelec ≤ 2 * H.nbasis := by omega
  rw [Finset.sum_const, doubles_card H det hs, nsmul_eq_mul,
    reportedProbDouble_eq H hle, virt_card hs.nodup hsub, hlen]
  have hch1 : (0 : ℚ) < ((H.nelec.choose 2 : ℕ) : ℚ) := by
    exact_mod_cast Nat.choose_pos (by omega : 2 ≤ H.nelec)
  have hch2 : (0 : ℚ) < (((2 * H.nbasis - H.nelec).choose 2 : ℕ) : ℚ) := by
    exact_mod_cast Nat.choose_pos (by omega : 2 ≤ 2 * H.nbasis - H.nelec)
  have hne : ((((2 * H.nbasis - H.nelec).choose 2 : ℕ) : ℚ)
      * ((H.nelec.choose 2 : ℕ) : ℚ)) ≠ 0 :=
    ne_of_gt (mul_pos hch2 hch1)
  rw [Nat.cast_mul,
    mul_comm ((H.nelec.choose 2 : ℕ) : ℚ) (((2 * H.nbasis - H.nelec).choose 2 : ℕ) : ℚ),
    mul_comm, div_mul_cancel₀ _ hne]

lemma card_positions (l : List Nat) (hnd : l.Nodup) (S : Finset Nat)
    (hS : S ⊆ l.toFinset) :
    ((Finset.range l.length).filter (fun i => l.getD i 0 ∈ S)).card = S.card := by
  have himg : (Finset.range l.length).filter (fun i => l.getD i 0 ∈ S)
      = S.image (fun a => l.indexOf a) := by
    ext i
    simp only [Finset.mem_filter, Finset.mem_range, Finset.mem_image]
    constructor
    · rintro ⟨hlt, hmem⟩
      refine ⟨l.getD i 0, hmem, ?_⟩
      rw [List.getD_eq_getElem l 0 hlt]
      exact List.indexOf_getElem hnd i hlt
    · rintro ⟨a, haS, rfl⟩
      have hal : a ∈ l := List.mem_toFinset.mp (hS haS)
      have hlt : l.indexOf a < l.length := List.indexOf_lt_length.mpr hal
      refine ⟨hlt, ?_⟩
      rw [List.getD_eq_getElem l 0 hlt, List.getElem_indexOf hlt]
      exact haS
  rw [himg, Finset.card_image_of_injOn]
  intro a ha b hb hab
  exact (List.indexOf_inj (List.mem_toFinset.mp (hS ha))
    (List.mem_toFinset.mp (hS hb))).mp hab

lemma count_outer (H : HAM) (det : List Nat) (hnd : det.Nodup)
    (P Q : Finset Nat) (hPsub : P ⊆ det.toFinset) (hPcard : P.card = 2)
    (hQsub : Q ⊆ virt H det) (hQcard : Q.card = 2) :
    (((Finset.range det.length) ×ˢ virt H det).filter
        (fun p => det.getD p.1 0 ∈ P ∧ p.2 ∈ Q)).card = 4 := by
  rw [Finset.filter_product (fun i => det.getD i 0 ∈ P) (fun t => t ∈ Q),
    Finset.card_product, card_positions det hnd P hPsub, hPcard,
    Finset.filter_mem_eq_inter, Finset.inter_eq_right.mpr hQsub, hQcard]

lemma count_inner (H : HAM) (det : List Nat) (hs : det.Sorted (· < ·))
    (P Q : Finset Nat) (hPsub : P ⊆ det.toFinset) (hPcard : P.card = 2)
    (hQsub : Q ⊆ virt H det) (hQcard : Q.card = 2)
    {ind t : Nat} (hi : ind < det.length) (ht : t ∈ virt H det) :
    ((accept2 H det ind t).filter
        (fun q => doubleExcite det ind t q.1 q.2
          = Finset.sort (· ≤ ·) ((det.toFinset \ P) ∪ Q))).card
      = if det.getD ind 0 ∈ P ∧ t ∈ Q then 1 else 0 := by
  have hfocc : det.getD ind 0 ∈ det.toFinset :=
    List.mem_toFinset.mpr (getD_mem_of_lt hi)
  have key : ∀ q ∈ accept2 H det ind t,
      (doubleExcite det ind t q.1 q.2
          = Finset.sort (· ≤ ·) ((det.toFinset \ P) ∪ Q)
        ↔ ({det.getD ind 0, (singleExcite det ind t).getD q.1 0} = P
            ∧ {t, q.2} = Q)) := by
    intro q hq
    obtain ⟨hq1, hqf2, hqidx, hqt2, hqnm⟩ := accept2_facts H det hs hi ht hq
    obtain ⟨hDs, _, _⟩ := doubleExcite_sorted H det hs hi ht hq
    have hQdisj : Disjoint ({t, q.2} : Finset Nat) det.toFinset := by
      rw [Finset.disjoint_left]
      intro x hx hxocc
      rcases Finset.mem_insert.mp hx with rfl | hx1
      · exact virt_not_mem_toFinset ht hxocc
      · rw [Finset.mem_singleton] at hx1
        subst hx1
        exact virt_not_mem_toFinset (Finset.mem_of_mem_erase hqt2) hxocc
    constructor
    · intro hEq
      have hfin := congrArg List.toFinset hEq
      rw [doubleExcite_toFinset H det hs hi ht hq, Finset.sort_toFinset] at hfin
      exact pair_recover
        (Finset.insert_subset_iff.mpr ⟨hfocc,
          Finset.singleton_subset_iff.mpr (Finset.mem_of_mem_erase hqf2)⟩)
        hPsub hQdisj (Disjoint.mono_left hQsub Finset.sdiff_disjoint) hfin
    · rintro ⟨hPE, hQE⟩
      apply eq_of_sorted_of_toFinset_eq hDs (Finset.sort_sorted_lt _)
      rw [Finset.sort_toFinset, doubleExcite_toFinset H det hs hi ht hq,
        hPE, hQE]
  by_cases hcond : det.getD ind 0 ∈ P ∧ t ∈ Q
  · rw [if_pos hcond]
    obtain ⟨a, b, hab, hPeq⟩ := Finset.card_eq_two.mp hPcard
    obtain ⟨c, d, hcd, hQeq⟩ := Finset.card_eq_two.mp hQcard
    have hPex : ∃ f2, f2 ≠ det.getD ind 0 ∧ f2 ∈ det.toFinset
        ∧ P = {det.getD ind 0, f2} := by
      rcases Finset.mem_insert.mp (hPeq ▸ hcond.1) with hfa | hfb
      · refine ⟨b, ?_, ?_, ?_⟩
        · rw [hfa]; exact hab.symm
        · apply hPsub; rw [hPeq]
          exact Finset.mem_insert_of_mem (Finset.mem_singleton_self b)
        · rw [hPeq, hfa]
      · rw [Finset.mem_singleton] at hfb
        refine ⟨a, ?_, ?_, ?_⟩
        · rw [hfb]; exact hab
        · apply hPsub; rw [hPeq]; exact Finset.mem_insert_self a {b}
        · rw [hPeq, hfb]; exact Finset.pair_comm a b
    have hQex : ∃ t2, t2 ≠ t ∧ t2 ∈ virt H det ∧ Q = {t, t2} := by
      rcases Finset.mem_insert.mp (hQeq ▸ hcond.2) with hta | htb
      · refine ⟨d, ?_, ?_, ?_⟩
        · rw [hta]; exact hcd.symm
        · apply hQsub; rw [hQeq]
          exact Finset.mem_insert_of_mem (Finset.mem_singleton_self d)
        · rw [hQeq, hta]
      · rw [Finset.mem_singleton] at htb
        refine ⟨c, ?_, ?_, ?_⟩
        · rw [htb]; exact hcd
        · apply hQsub; rw [hQeq]; exact Finset.mem_insert_self c {d}
        · rw [hQeq, htb]; exact Finset.pair_comm c d
    obtain ⟨f2, hf2ne, hf2occ, hPe⟩ := hPex
    obtain ⟨t2, ht2ne, ht2virt, hQe⟩ := hQex
    rw [Finset.card_eq_one]
    refine ⟨((singleExcite det ind t).indexOf f2, t2), ?_⟩
    apply Finset.eq_singleton_iff_unique_mem.mpr
    have hf2e : f2 ∈ det.toFinset.erase (det.getD ind 0) :=
      Finset.mem_erase.mpr ⟨hf2ne, hf2occ⟩
    have ht2e : t2 ∈ (virt H det).erase t := Finset.mem_erase.mpr ⟨ht2ne, ht2virt⟩
    obtain ⟨hqmem, hqget⟩ := build_path H det hs hi hf2e ht ht2e
    constructor
    · apply Finset.mem_filter.mpr
      refine ⟨hqmem, ?_⟩
      apply (key _ hqmem).mpr
      refine ⟨?_, hQe.symm⟩
      rw [hqget]
      exact hPe.symm
    · intro q hqf
      obtain ⟨hqacc, hqD⟩ := Finset.mem_filter.mp hqf
      obtain ⟨hPE, hQE⟩ := (key q hqacc).mp hqD
      obtain ⟨_, hqf2, hqidx, hqt2, _⟩ := accept2_facts H det hs hi ht hqacc
      have hm : (singleExcite det ind t).getD q.1 0 ∈ P := by
        rw [← hPE]
        exact Finset.mem_insert_of_mem (Finset.mem_singleton_self _)
      have hf2q : (singleExcite det ind t).getD q.1 0 = f2 := by
        rw [hPe] at hm
        rcases Finset.mem_insert.mp hm with hc | hc
        · exact absurd hc (Finset.mem_erase.mp hqf2).1
        · exact Finset.mem_singleton.mp hc
      have hqt : q.2 = t2 := by
        have hm2 : q.2 ∈ Q := by
          rw [← hQE]
          exact Finset.mem_insert_of_mem (Finset.mem_singleton_self _)
        rw [hQe] at hm2
        rcases Finset.mem_insert.mp hm2 with hc | hc
        · exact absurd hc (Finset.mem_erase.mp hqt2).1
        · exact Finset.mem_singleton.mp hc
      apply Prod.ext
      · rw [hqidx, hf2q]
      · exact hqt
  · rw [if_neg hcond, Finset.card_eq_zero]
    apply Finset.eq_empty_iff_forall_not_mem.mpr
    intro q hqf
    obtain ⟨hqacc, hqD⟩ := Finset.mem_filter.mp hqf
    obtain ⟨hPE, hQE⟩ := (key q hqacc).mp hqD
    apply hcond
    constructor
    · rw [← hPE]; exact Finset.mem_insert_self _ _
    · rw [← hQE]; exact Finset.mem_insert_self _ _

lemma doubles_trueprob (H : HAM) (det : List Nat) (hs : det.Sorted (· < ·))
    (hlen : det.length = H.nelec) (hsub : ∀ x ∈ det, x < 2 * H.nbasis)
    (hn : 2 ≤ det.length) (hm : det.length + 2 ≤ 2 * H.nbasis)
    (D : List Nat) (hD : D ∈ doublesOf H det) :
    trueProbDouble H det D = reportedProbDouble H := by
  rw [doubles_eq_pairs H det hs] at hD
  obtain ⟨PQ, hPQ, hsort⟩ := Finset.mem_image.mp hD
  obtain ⟨hP, hQ⟩ := Finset.mem_product.mp hPQ
  obtain ⟨hPsub, hPcard⟩ := Finset.mem_powersetCard.mp hP
  obtain ⟨hQsub, hQcard⟩ := Finset.mem_powersetCard.mp hQ
  subst hsort
  have hmn : 2 ≤ (virt H det).card := by
    rw [virt_card hs.nodup hsub]
    omega
  have hq1 : (2 : ℚ) ≤ (det.length : ℚ) := by exact_mod_cast hn
  have hq2 : (2 : ℚ) ≤ ((virt H det).card : ℚ) := by exact_mod_cast hmn
  have hn0 : ((det.length : ℚ)) ≠ 0 := by linarith
  have hm0 : (((virt H det).card : ℚ)) ≠ 0 := by linarith
  have hn1 : ((det.length : ℚ)) - 1 ≠ 0 := by linarith
  have hm1 : (((virt H det).card : ℚ)) - 1 ≠ 0 := by linarith
  have hcast1 : ((det.length - 1 : ℕ) : ℚ) = (det.length : ℚ) - 1 := by
    rw [Nat.cast_sub (by omega)]
    norm_num
  have hcast2 : (((virt H det).card - 1 : ℕ) : ℚ)
      = ((virt H det).card : ℚ) - 1 := by
    rw [Nat.cast_sub (by omega)]
    norm_num
  rw [trueProbDouble]
  have hsum : ∀ p ∈ (Finset.range det.length) ×ˢ virt H det,
      (1 / ((det.length : ℚ) * ((virt H det).card : ℚ))) *
        (∑ q ∈ accept2 H det p.1 p.2,
          if doubleExcite det p.1 p.2 q.1 q.2
              = Finset.sort (· ≤ ·) ((det.toFinset \ PQ.1) ∪ PQ.2)
          then 1 / ((accept2 H det p.1 p.2).card : ℚ) else 0)
      = (1 / ((det.length : ℚ) * ((virt H det).card : ℚ)
            * ((det.length : ℚ) - 1) * (((virt H det).card : ℚ) - 1)))
          * (if det.getD p.1 0 ∈ PQ.1 ∧ p.2 ∈ PQ.2 then (1 : ℚ) else 0) := by
    intro p hp
    obtain ⟨hp1, hp2⟩ := Finset.mem_product.mp hp
    rw [Finset.mem_range] at hp1
    rw [sum_ite_const,
      count_inner H det hs PQ.1 PQ.2 hPsub hPcard hQsub hQcard hp1 hp2,
      accept2_card H det hs hp1 hp2, Nat.cast_mul, hcast1, hcast2]
    by_cases hc : det.getD p.1 0 ∈ PQ.1 ∧ p.2 ∈ PQ.2
    · rw [if_pos hc, if_pos hc]
      push_cast
      field_simp
      ring
    · rw [if_neg hc, if_neg hc]
      norm_num
  rw [Finset.sum_congr rfl hsum, ← Finset.mul_sum, sum_ite_const,
    count_outer H det hs.nodup PQ.1 PQ.2 hPsub hPcard hQsub hQcard,
    reportedProbDouble_eq H (by omega), Nat.cast_choose_two,
    Nat.cast_choose_two]
  have hvm : ((2 * H.nbasis - H.nelec : ℕ) : ℚ) = ((virt H det).card : ℚ) := by
    rw [virt_card hs.nodup hsub, hlen]
  rw [hvm, ← hlen]
  field_simp
  ring

/-- C3.  For a sorted duplicate-free determinant with `n_elec` occupied
out of `2*nbasis` spin orbitals (at least two occupied and two free),
`HAM.excit_gen` reports `p_single / (n_elec*(2*nbasis - n_elec))` for
every single excitation and
`(1 - p_single) / (C(2*nbasis - n_elec, 2) * C(n_elec, 2))` for every
double; summing the reported probability over all distinct reachable
outcomes gives exactly `p_single` (singles) and `1 - p_single`
(doubles); and the reported value equals the probability with which the
sampling procedure — rejection loops modelled as uniform draws on their
acceptance sets — generates each reachable outcome. -/
theorem C3_excit_gen_probability (H : HAM) (det : List Nat)
    (hs : det.Sorted (· < ·)) (hlen : det.length = H.nelec)
    (hsub : ∀ x ∈ det, x < 2 * H.nbasis)
    (hn : 2 ≤ det.length) (hm : det.length + 2 ≤ 2 * H.nbasis) :
    (∀ d : ExcitDraws, d.single = true →
      (excit_gen H det d).prob
        = H.p_single / ((H.nelec : ℚ) * (2 * (H.nbasis : ℚ) - (H.nelec : ℚ))))
    ∧ (∀ d : ExcitDraws, d.single = false →
      (excit_gen H det d).prob
        = (1 - H.p_single) /
            ((((2 * H.nbasis - H.nelec).choose 2 : ℕ) : ℚ)
              * ((H.nelec.choose 2 : ℕ) : ℚ)))
    ∧ (∑ D ∈ singlesOf H det, reportedProbSingle H) = H.p_single
    ∧ (∑ D ∈ doublesOf H det, reportedProbDouble H) = 1 - H.p_single
    ∧ (∀ D ∈ singlesOf H det, trueProbSingle H det D = reportedProbSingle H)
    ∧ (∀ D ∈ doublesOf H det, trueProbDouble H det D = reportedProbDouble H) := by
  refine ⟨?_, ?_, singles_sum H det hs.nodup hlen hsub hn hm,
    doubles_sum H det hs hlen hsub hn hm,
    fun D hD => singles_trueprob H det hs hlen hsub hm D hD,
    fun D hD => doubles_trueprob H det hs hlen hsub hn hm D hD⟩
  · intro d hd
    simp [excit_gen, hd, reportedProbSingle]
  · intro d hd
    have hp : (excit_gen H det d).prob = reportedProbDouble H := by
      simp [excit_gen, hd]
    rw [hp]
    exact reportedProbDouble_eq H (by omega)

/-- C3 witness: the probability conclusions at the concrete Hamiltonian
`HC3` and determinant `[0, 1]`. -/
theorem C3_witness :
    (∀ d : ExcitDraws, d.single = true →
      (excit_gen HC3 [0, 1] d).prob
        = HC3.p_single / ((HC3.nelec : ℚ) * (2 * (HC3.nbasis : ℚ) - (HC3.nelec : ℚ))))
    ∧ (∀ d : ExcitDraws, d.single = false →
      (excit_gen HC3 [0, 1] d).prob
        = (1 - HC3.p_single) /
            ((((2 * HC3.nbasis - HC3.nelec).choose 2 : ℕ) : ℚ)
              * ((HC3.nelec.choose 2 : ℕ) : ℚ)))
    ∧ (∑ D ∈ singlesOf HC3 [0, 1], reportedProbSingle HC3) = HC3.p_single
    ∧ (∑ D ∈ doublesOf HC3 [0, 1], reportedProbDouble HC3) = 1 - HC3.p_single
    ∧ (∀ D ∈ singlesOf HC3 [0, 1],
        trueProbSingle HC3 [0, 1] D = reportedProbSingle HC3)
    ∧ (∀ D ∈ doublesOf HC3 [0, 1],
        trueProbDouble HC3 [0, 1] D = reportedProbDouble HC3) :=
  C3_excit_gen_probability HC3 [0, 1] (by decide) (by decide) (by decide)
    (by decide) (by decide)

/-! ## Claim C10: no mutation of the argument determinant lists -/

lemma store_read_alloc {σ : Store} {r : Nat} (v : List Nat)
    (h : r < σ.cells.length) : (σ.alloc v).1.read r = σ.read r := by
  unfold Store.alloc Store.read
  exact List.getD_append _ _ _ _ h

lemma store_read_write_ne {σ : Store} {c r : Nat} (v : List Nat)
    (h : r ≠ c) : (σ.write c v).read r = σ.read r := by
  unfold Store.write Store.read
  rw [List.getD_eq_getElem?_getD, List.getD_eq_getElem?_getD,
    List.getElem?_set_ne (fun hc => h hc.symm)]

lemma store_len_alloc (σ : Store) (v : List Nat) :
    (σ.alloc v).1.cells.length = σ.cells.length + 1 := by
  unfold Store.alloc
  simp

lemma store_len_write (σ : Store) (c : Nat) (v : List Nat) :
    (σ.write c v).cells.length = σ.cells.length := by
  unfold Store.write
  simp

lemma elec_exchange_opsS_frame (σ : Store) (det : Nat) (ind : Int) :
    (∀ r < σ.cells.length, (elec_exchange_opsS σ det ind).2.read r = σ.read r)
    ∧ (elec_exchange_opsS σ det ind).2.cells.length = σ.cells.length + 1 := by
  constructor
  · intro r hr
    show ((σ.alloc (σ.read det)).1.write (σ.alloc (σ.read det)).2 _).read r
        = σ.read r
    rw [store_read_write_ne _
      (show r ≠ (σ.alloc (σ.read det)).2 from Nat.ne_of_lt hr)]
    exact store_read_alloc _ hr
  · show ((σ.alloc (σ.read det)).1.write (σ.alloc (σ.read det)).2 _).cells.length
        = σ.cells.length + 1
    rw [store_len_write, store_len_alloc]

lemma cempLoopS_frame (L : List (Nat × Nat)) :
    ∀ (σ : Store) (c n : Nat), n ≤ σ.cells.length → n ≤ c →
      n ≤ (cempLoopS σ c L).2.cells.length
      ∧ ∀ r < n, (cempLoopS σ c L).2.read r = σ.read r := by
  induction L with
  | nil =>
    intro σ c n h1 _
    exact ⟨h1, fun r _ => rfl⟩
  | cons ft rest ih =>
    intro σ c n hσ hc
    obtain ⟨f, t⟩ := ft
    simp only [cempLoopS]
    set dc := σ.read c with hdc
    set ind := dc.indexOf f with hind
    set σ₁ := σ.write c (dc.set ind t) with hσ₁
    set pe := elec_exchange_opsS σ₁ c (ind : Int) with hpe
    set ac := pe.2.alloc (pySorted (pe.2.read c)) with hac
    have hl1 : σ₁.cells.length = σ.cells.length := store_len_write σ c _
    have he1 : ∀ r < n, σ₁.read r = σ.read r := fun r hr =>
      store_read_write_ne _ (by omega)
    obtain ⟨he2, hl2⟩ := elec_exchange_opsS_frame σ₁ c (ind : Int)
    rw [← hpe] at he2 hl2
    have hl3 : ac.1.cells.length = pe.2.cells.length + 1 := store_len_alloc pe.2 _
    have hc2 : ac.2 = pe.2.cells.length := rfl
    obtain ⟨hl4, he4⟩ := ih ac.1 ac.2 n (by omega) (by omega)
    constructor
    · exact hl4
    · intro r hr
      show (cempLoopS ac.1 ac.2 rest).2.read r = σ.read r
      calc (cempLoopS ac.1 ac.2 rest).2.read r
          = ac.1.read r := he4 r hr
        _ = pe.2.read r := store_read_alloc _ (by omega)
        _ = σ₁.read r := he2 r (by omega)
        _ = σ.read r := he1 r hr

lemma calc_excit_mat_parityS_frame (σ : Store) (det exc : Nat) :
    ∀ r < σ.cells.length,
      (calc_excit_mat_parityS σ det exc).2.read r = σ.read r := by
  intro r hr
  simp only [calc_excit_mat_parityS]
  set dl := σ.read det with hdl
  set el := σ.read exc with hel
  set zips := (dl.filter (fun x => decide (x ∉ el))).zip
    (el.filter (fun x => decide (x ∉ dl))) with hzips
  set ac := σ.alloc dl with hac
  obtain ⟨_, he⟩ := cempLoopS_frame zips ac.1 ac.2 σ.cells.length
    (by rw [hac, store_len_alloc]; omega) (le_of_eq rfl)
  show (cempLoopS ac.1 ac.2 zips).2.read r = σ.read r
  calc (cempLoopS ac.1 ac.2 zips).2.read r
      = ac.1.read r := he r hr
    _ = σ.read r := store_read_alloc _ hr

lemma excit_genS_frame (σ : Store) (H : HAM) (det : Nat) (d : ExcitDraws) :
    ∀ r < σ.cells.length, (excit_genS σ H det d).2.read r = σ.read r := by
  intro r hr
  simp only [excit_genS]
  set dl := σ.read det with hdl
  set a1 := σ.alloc dl with ha1
  set σ₂ := a1.1.write a1.2 ((a1.1.read a1.2).set d.ind d.orb_to) with hσ₂
  set pe := elec_exchange_opsS σ₂ a1.2 ((d.ind : Nat) : Int) with hpe
  set a2 := pe.2.alloc (pySorted (pe.2.read a1.2)) with ha2
  have hl1 : a1.1.cells.length = σ.cells.length + 1 := store_len_alloc σ dl
  have he1 : a1.1.read r = σ.read r := store_read_alloc _ hr
  have hc1 : a1.2 = σ.cells.length := rfl
  have he2 : σ₂.read r = a1.1.read r := store_read_write_ne _ (by omega)
  have hl2 : σ₂.cells.length = a1.1.cells.length := store_len_write _ _ _
  obtain ⟨he3, hl3⟩ := elec_exchange_opsS_frame σ₂ a1.2 ((d.ind : Nat) : Int)
  rw [← hpe] at he3 hl3
  have hl4 : a2.1.cells.length = pe.2.cells.length + 1 := store_len_alloc pe.2 _
  have hc2 : a2.2 = pe.2.cells.length := rfl
  have he4 : a2.1.read r = pe.2.read r := store_read_alloc _ (by omega)
  have hbase : a2.1.read r = σ.read r := by
    rw [he4, he3 r (by omega), he2, he1]
  cases hd : d.single
  · simp only [Bool.false_eq_true, if_false]
    set σ₅ := a2.1.write a2.2 ((a2.1.read a2.2).set d.ind2 d.orb_to_2) with hσ₅
    set pe2 := elec_exchange_opsS σ₅ a2.2 ((d.ind2 : Nat) : Int) with hpe2
    set a3 := pe2.2.alloc (pySorted (pe2.2.read a2.2)) with ha3
    have he5 : σ₅.read r = a2.1.read r := store_read_write_ne _ (by omega)
    have hl5 : σ₅.cells.length = a2.1.cells.length := store_len_write _ _ _
    obtain ⟨he6, hl6⟩ := elec_exchange_opsS_frame σ₅ a2.2 ((d.ind2 : Nat) : Int)
    rw [← hpe2] at he6 hl6
    have he7 : a3.1.read r = pe2.2.read r := store_read_alloc _ (by omega)
    show a3.1.read r = σ.read r
    rw [he7, he6 r (by omega), he5, hbase]
  · simp only [if_true]
    exact hbase

/-- C10.  `elec_exchange_ops`, `HAM.excit_gen` and
`calc_excit_mat_parity` never modify the determinant lists passed to
them: in the store model, where every in-place Python list assignment
is a heap write, each function only writes to cells it freshly
allocated (`.copy()` / `sorted(...)`), so every pre-existing cell — in
particular each argument list — holds exactly the same elements in the
same order after the call. -/
theorem C10_no_mutation (σ : Store) (H : HAM) (d : ExcitDraws)
    (det exc : Nat) (ind : Int) :
    (∀ r < σ.cells.length,
      (elec_exchange_opsS σ det ind).2.read r = σ.read r)
    ∧ (∀ r < σ.cells.length, (excit_genS σ H det d).2.read r = σ.read r)
    ∧ (∀ r < σ.cells.length,
      (calc_excit_mat_parityS σ det exc).2.read r = σ.read r) :=
  ⟨(elec_exchange_opsS_frame σ det ind).1,
   excit_genS_frame σ H det d,
   calc_excit_mat_parityS_frame σ det exc⟩

/-- C10 witness: a store holding the lists `[0, 1]` and `[0, 2]`; after
each of the three calls the first cell still reads `[0, 1]`. -/
theorem C10_witness :
    (elec_exchange_opsS ⟨[[0, 1], [0, 2]]⟩ 0 0).2.read 0
        = Store.read ⟨[[0, 1], [0, 2]]⟩ 0
    ∧ (excit_genS ⟨[[0, 1], [0, 2]]⟩ HC3 0 ⟨true, 0, 2, 0, 3⟩).2.read 0
        = Store.read ⟨[[0, 1], [0, 2]]⟩ 0
    ∧ (calc_excit_mat_parityS ⟨[[0, 1], [0, 2]]⟩ 0 1).2.read 0
        = Store.read ⟨[[0, 1], [0, 2]]⟩ 0 :=
  ⟨(C10_no_mutation ⟨[[0, 1], [0, 2]]⟩ HC3 ⟨true, 0, 2, 0, 3⟩ 0 1 0).1 0
      (by decide),
   (C10_no_mutation ⟨[[0, 1], [0, 2]]⟩ HC3 ⟨true, 0, 2, 0, 3⟩ 0 1 0).2.1 0
      (by decide),
   (C10_no_mutation ⟨[[0, 1], [0, 2]]⟩ HC3 ⟨true, 0, 2, 0, 3⟩ 0 1 0).2.2 0
      (by decide)⟩
